import Mathlib

/-!
Verification of the Stereolabs 404 link-checker (repository Wicoco/404).

The development shallowly embeds the JavaScript sources:
  - lib/SitemapCleaner.js      (two versions are present in the repository: one
    with a short locale table containing /en/, /fr/, ..., and one with a long
    regional table of /en-xx/ entries; both are embedded, parameterised by the
    table, since the rest of the two files is character-for-character identical)
  - lib/utils.js               (resolveUrl, isInternalUrl, findLineNumber,
    processConcurrent)
  - lib/LinkExtractor.js
  - lib/LinkChecker.js
  - lib/SlackNotifier.js and the api/check-links.js handler (notification and
    abort logic)

Strings are embedded as `List Char` (the logical model of JavaScript strings).
The WHATWG `URL` platform builtin is modelled by `parseUrl`/`serializeUrl`
below; the model covers hierarchical `scheme://authority/...` URLs without
whitespace and does not perform percent-encoding, case normalisation of the
scheme/host, or default-port elision — none of which the verified claims
depend on.  HTTP transport (axios) is modelled as an outcome value passed to
the functions that consume it.
-/

namespace LinkCheck

/-- Shorthand turning a string literal into the `List Char` embedding. -/
def str (s : String) : List Char := s.toList

/-! ## Character classes and small string utilities -/

/-- Whitespace characters as trimmed by `String.prototype.trim` (ASCII subset). -/
def isWsChar (c : Char) : Bool := c = ' ' || c = '\t' || c = '\n' || c = '\r'

/-- Characters allowed in a URL scheme (after the leading letter). -/
def schemeChar (c : Char) : Bool := c.isAlpha || c.isDigit || c = '+' || c = '-' || c = '.'

/-- Characters terminating the authority (host) component. -/
def hostEnd (c : Char) : Bool := c = '/' || c = '?' || c = '#'

/-- Characters terminating the path component. -/
def pathEnd (c : Char) : Bool := c = '?' || c = '#'

/-- Model of `String.prototype.trim`: drop leading and trailing whitespace. -/
def trimChars (l : List Char) : List Char :=
  ((l.dropWhile isWsChar).reverse.dropWhile isWsChar).reverse

/-- Split a character list at every occurrence of `sep` (the separator is
dropped; `n+1` parts for `n` separators, like `String.prototype.split`). -/
def splitChar (sep : Char) : List Char → List (List Char)
  | [] => [[]]
  | c :: cs =>
    if c = sep then [] :: splitChar sep cs
    else
      match splitChar sep cs with
      | [] => [[c]]
      | s :: ss => (c :: s) :: ss

/-- Interleave `sep` between the parts (inverse of `splitChar` on sep-free parts). -/
def intercalateChar (sep : Char) : List (List Char) → List Char
  | [] => []
  | [p] => p
  | p :: ps => p ++ sep :: intercalateChar sep ps

/-! ## Model of the WHATWG `URL` builtin -/

/-- A parsed URL: `scheme://host path ?query #frag`.  `query` is the list of
`name=value` pairs exposed by `searchParams`. -/
structure UrlObj where
  scheme : List Char
  host : List Char
  path : List Char
  query : List (List Char × List Char)
  frag : List Char
deriving DecidableEq, Repr

/-- One `name=value` pair of a query string (`URLSearchParams` pair parsing:
the name is everything before the first `=`). -/
def parsePair (seg : List Char) : List Char × List Char :=
  (seg.takeWhile (fun c => !(c = '=')), (seg.dropWhile (fun c => !(c = '='))).drop 1)

/-- Parse a raw query string (without the leading `?`) into pairs; empty
`&`-segments are skipped, as in `URLSearchParams`. -/
def parseQuery (qs : List Char) : List (List Char × List Char) :=
  if qs = [] then [] else ((splitChar '&' qs).filter (fun s => !(s = []))).map parsePair

/-- Serialize one query pair. -/
def serializePair (p : List Char × List Char) : List Char := p.1 ++ '=' :: p.2

/-- Serialize a pair list back to a query string including the leading `?`
(empty for no pairs). -/
def serializeQuery : List (List Char × List Char) → List Char
  | [] => []
  | ps => '?' :: intercalateChar '&' (ps.map serializePair)

/-- Stage of the URL parser after the path: query string and fragment. -/
def parseQueryFrag (r3 : List Char) : List (List Char × List Char) × List Char :=
  match r3 with
  | '?' :: q =>
    let qchars := q.takeWhile (fun c => !(c = '#'))
    let frag := match q.drop qchars.length with
      | '#' :: f => f
      | _ => []
    (parseQuery qchars, frag)
  | '#' :: f => ([], f)
  | _ => ([], [])

/-- Stage of the URL parser after `scheme://`: authority, path (defaulting to
`/`), query, fragment. -/
def parseHostPath (scheme r : List Char) : UrlObj :=
  let host := r.takeWhile (fun c => !hostEnd c)
  let r2 := r.drop host.length
  let pathRaw := r2.takeWhile (fun c => !pathEnd c)
  let path := if pathRaw = [] then ['/'] else pathRaw
  let qf := parseQueryFrag (r2.drop pathRaw.length)
  ⟨scheme, host, path, qf.1, qf.2⟩

/-- Model of `new URL(s)` for hierarchical URLs (`scheme://...`); returns
`none` where the platform constructor throws (and also on whitespace-bearing
input, which the model does not cover). -/
def parseUrl (s : List Char) : Option UrlObj :=
  if s.any isWsChar then none else
  let scheme := s.takeWhile (fun c => !(c = ':'))
  match s.drop scheme.length with
  | ':' :: '/' :: '/' :: r =>
    match scheme with
    | [] => none
    | c0 :: _ =>
      if !c0.isAlpha then none
      else if !(scheme.all schemeChar) then none
      else some (parseHostPath scheme r)
  | _ => none

/-- Model of `URL.prototype.toString` / `.href`. -/
def serializeUrl (u : UrlObj) : List Char :=
  u.scheme ++ ':' :: '/' :: '/' ::
    (u.host ++ u.path ++ serializeQuery u.query ++
      (if u.frag = [] then [] else '#' :: u.frag))

/-! ### Well-formedness of URL objects (what `parseUrl` guarantees and
`serializeUrl` needs for the round trip) -/

def schemeOk (l : List Char) : Bool :=
  match l with
  | [] => false
  | c :: _ => c.isAlpha && l.all schemeChar

def hostOk (l : List Char) : Bool :=
  l.all (fun c => !hostEnd c && !isWsChar c)

def pathOk (l : List Char) : Bool :=
  match l with
  | [] => false
  | c :: _ => c = '/' && l.all (fun d => !pathEnd d && !isWsChar d)

def nameOk (l : List Char) : Bool :=
  l.all (fun c => !(c = '&') && !(c = '=') && !(c = '#') && !isWsChar c)

def valOk (l : List Char) : Bool :=
  l.all (fun c => !(c = '&') && !(c = '#') && !isWsChar c)

def queryOk (q : List (List Char × List Char)) : Bool :=
  q.all (fun p => nameOk p.1 && valOk p.2)

def fragOk (l : List Char) : Bool :=
  l.all (fun c => !isWsChar c)

def wfUrl (u : UrlObj) : Bool :=
  schemeOk u.scheme && hostOk u.host && pathOk u.path && queryOk u.query && fragOk u.frag

/-! ## lib/SitemapCleaner.js

Two versions of the class are present in the repository; they differ only in
the `languagePrefixes` table, so the embedding is parameterised by it. -/

/-- Table `excludedExtensions` of the `SitemapCleaner` constructor (both versions). -/
def excludedExtensions : List (List Char) :=
  [str ".pdf", str ".doc", str ".docx", str ".xls", str ".xlsx", str ".ppt", str ".pptx",
   str ".txt", str ".rtf", str ".odt", str ".ods", str ".odp",
   str ".jpg", str ".jpeg", str ".png", str ".gif", str ".svg", str ".webp", str ".ico", str ".bmp",
   str ".mp4", str ".avi", str ".mov", str ".mp3", str ".wav",
   str ".zip", str ".rar", str ".tar", str ".gz"]

/-- Table `excludedParams` of the `SitemapCleaner` constructor (both versions). -/
def excludedParams : List (List Char) :=
  [str "lang", str "locale", str "language", str "l",
   str "utm_source", str "utm_medium", str "utm_campaign", str "utm_content", str "utm_term",
   str "gclid", str "fbclid", str "_ga", str "_gac"]

/-- Table `languagePrefixes` of the short-table `SitemapCleaner` version
(src/unnamed/part_003 line 28). -/
def languagePrefixesSimple : List (List Char) :=
  [str "/en/", str "/fr/", str "/de/", str "/es/", str "/it/", str "/ja/", str "/zh/", str "/ko/"]

/-- Table `languagePrefixes` of the regional-table `SitemapCleaner` version
(src/unnamed/part_004 lines 28-102), duplicates included as written. -/
def languagePrefixesRegional : List (List Char) :=
  [str "/en-fr/",
   str "/en-us/", str "/en-gb/", str "/en-ca/", str "/en-au/", str "/en-in/",
   str "/en-at/", str "/en-be/", str "/en-cy/", str "/en-cz/", str "/en-dk/",
   str "/en-ee/", str "/en-fi/", str "/en-fr/", str "/en-de/", str "/en-gr/",
   str "/en-hu/", str "/en-ie/", str "/en-it/", str "/en-lt/", str "/en-lu/",
   str "/en-lv/", str "/en-mt/", str "/en-nl/", str "/en-no/", str "/en-pl/",
   str "/en-pt/", str "/en-ro/", str "/en-sk/", str "/en-si/", str "/en-es/",
   str "/en-se/", str "/en-ch/",
   str "/en-ar/", str "/en-br/", str "/en-cl/", str "/en-mx/", str "/en-pe/", str "/en-uy/",
   str "/en-cn/", str "/en-hk/", str "/en-id/", str "/en-il/", str "/en-jp/",
   str "/en-kz/", str "/en-kr/", str "/en-my/", str "/en-nz/", str "/en-ph/",
   str "/en-sg/", str "/en-tw/", str "/en-th/", str "/en-tr/", str "/en-vn/",
   str "/en-eg/", str "/en-il/", str "/en-lb/", str "/en-ma/", str "/en-qa/",
   str "/en-sa/", str "/en-ae/", str "/en-za/"]

/-- The locale-stripping loop of `cleanSingleUrl`: the first table entry that
is a prefix of the pathname rewrites it via
`pathname.substring(prefix.length - 1)` (keeping the leading `/`), then the
loop breaks. -/
def stripLocale (prefixes : List (List Char)) (p : List Char) : List Char :=
  match prefixes with
  | [] => p
  | pre :: rest =>
    if pre.isPrefixOf p then p.drop (pre.length - 1) else stripLocale rest p

/-- Step `if (!pathname.startsWith('/')) pathname = '/' + pathname` of cleanSingleUrl. -/
def ensureSlash (p : List Char) : List Char :=
  match p with
  | '/' :: _ => p
  | _ => '/' :: p

/-- Effect of `searchParams.delete(param)` for each excluded parameter: drops every pair
whose name is in the excluded list. -/
def deleteParams (names : List (List Char)) (q : List (List Char × List Char)) :
    List (List Char × List Char) :=
  q.filter (fun p => !(names.contains p.1))

/-- The object-level transformation performed by `cleanSingleUrl` between
parsing and re-serialization: delete excluded query parameters, strip the
first matching locale prefix, ensure a leading slash, clear the fragment. -/
def cleanObj (prefixes : List (List Char)) (u : UrlObj) : UrlObj :=
  { u with
    path := ensureSlash (stripLocale prefixes u.path)
    query := deleteParams excludedParams u.query
    frag := [] }

/-- Function `SitemapCleaner.cleanSingleUrl`: trims, parses (returning null on
failure), cleans, re-serializes. -/
def cleanSingleUrl (prefixes : List (List Char)) (url : List Char) : Option (List Char) :=
  if url = [] then none
  else
    match parseUrl (trimChars url) with
    | none => none
    | some u => some (serializeUrl (cleanObj prefixes u))

/-- Predicate `SitemapCleaner.isExcludedFile`: pathname (lower-cased) ends with an
excluded extension.  In the pipeline it is only applied to URLs that parse. -/
def isExcludedFile (url : List Char) : Bool :=
  match parseUrl url with
  | some u => excludedExtensions.any (fun e => e.isSuffixOf (u.path.map Char.toLower))
  | none => false

/-- Local table `excludedPaths` of `SitemapCleaner.isExcludedPath`. -/
def excludedPaths : List (List Char) :=
  [str "/admin", str "/wp-admin", str "/api/", str "/assets/", str "/static/",
   str "/downloads/", str "/files/", str "/uploads/", str "/media/",
   str "/.well-known/", str "/robots.txt", str "/sitemap"]

/-- Predicate `SitemapCleaner.isExcludedPath`: pathname (lower-cased) starts with an
excluded path. -/
def isExcludedPath (url : List Char) : Bool :=
  match parseUrl url with
  | some u => excludedPaths.any (fun p => p.isPrefixOf (u.path.map Char.toLower))
  | none => false

/-- Effect of `[...new Set(xs)]`: deduplicate keeping first occurrences in
order (`seen` accumulates the values already emitted). -/
def dedupKeepFirstGo (seen : List (List Char)) : List (List Char) → List (List Char)
  | [] => []
  | x :: xs =>
    if seen.contains x then dedupKeepFirstGo seen xs
    else x :: dedupKeepFirstGo (x :: seen) xs

/-- Effect of `[...new Set(xs)]`: deduplicate keeping first occurrences in order. -/
def dedupKeepFirst (l : List (List Char)) : List (List Char) :=
  dedupKeepFirstGo [] l

/-- Lexicographic comparison of UTF-16 strings, as used by the default
`Array.prototype.sort` comparator. -/
def lexLe : List Char → List Char → Bool
  | [], _ => true
  | _ :: _, [] => false
  | a :: as, b :: bs =>
    if a = b then lexLe as bs else decide (a < b)

def insertLe (x : List Char) : List (List Char) → List (List Char)
  | [] => [x]
  | y :: ys => if lexLe x y then x :: y :: ys else y :: insertLe x ys

/-- Model of `Array.prototype.sort()` with the default (lexicographic) comparator,
modelled as insertion sort. -/
def sortLex : List (List Char) → List (List Char)
  | [] => []
  | x :: xs => insertLe x (sortLex xs)

/-- Function `SitemapCleaner.process`: clean each URL, drop failures, drop excluded
files and paths, deduplicate, sort. -/
def process (prefixes : List (List Char)) (urls : List (List Char)) : List (List Char) :=
  sortLex (dedupKeepFirst
    (((urls.filterMap (cleanSingleUrl prefixes)).filter
        (fun u => !isExcludedFile u)).filter
      (fun u => !isExcludedPath u)))

/-! ## lib/utils.js -/

/-- Function `isInternalUrl` of lib/utils.js: hostname comparison of the two
URLs (in the pipeline both arguments are absolute). -/
def isInternalUrl (url baseUrl : List Char) : Bool :=
  match parseUrl url, parseUrl baseUrl with
  | some a, some b => a.host == b.host
  | _, _ => false

/-- Function `resolveUrl` of lib/utils.js: empty, fragment-only,
`javascript:`, `mailto:` and `tel:` references resolve to null; otherwise
`new URL(href, baseUrl).href`.  The model resolves absolute references and
root-relative references (leading `/`); other relative forms are resolved by
the platform URL resolver and are outside the model, so they yield `none`
here. -/
def resolveUrl (href baseUrl : List Char) : Option (List Char) :=
  if href = [] || (str "#").isPrefixOf href || (str "javascript:").isPrefixOf href
      || (str "mailto:").isPrefixOf href || (str "tel:").isPrefixOf href then
    none
  else
    match parseUrl href with
    | some u => some (serializeUrl u)
    | none =>
      match href, parseUrl baseUrl with
      | '/' :: _, some b =>
        if href.any isWsChar then none
        else
          let pathRaw := href.takeWhile (fun c => !pathEnd c)
          let r3 := href.drop pathRaw.length
          match r3 with
          | '?' :: q =>
            let qchars := q.takeWhile (fun c => !(c = '#'))
            let frag := match q.drop qchars.length with
              | '#' :: f => f
              | _ => []
            some (serializeUrl ⟨b.scheme, b.host, pathRaw, parseQuery qchars, frag⟩)
          | '#' :: f => some (serializeUrl ⟨b.scheme, b.host, pathRaw, [], f⟩)
          | _ => some (serializeUrl ⟨b.scheme, b.host, pathRaw, [], []⟩)
      | _, _ => none

/-- Collapse runs of whitespace to single spaces
(`element.replace(/\s+/g, ' ')`); `prevWs` records whether the previous
character belonged to a whitespace run already replaced. -/
def collapseWsGo (prevWs : Bool) : List Char → List Char
  | [] => []
  | c :: cs =>
    if isWsChar c then
      if prevWs then collapseWsGo true cs else ' ' :: collapseWsGo true cs
    else c :: collapseWsGo false cs

/-- Collapse runs of whitespace to single spaces
(`element.replace(/\s+/g, ' ')`). -/
def collapseWs (l : List Char) : List Char := collapseWsGo false l

/-- Containment of a contiguous character run (`String.prototype.includes`). -/
def containsSub (hay needle : List Char) : Bool :=
  match hay with
  | [] => needle.isEmpty
  | _ :: t => needle.isPrefixOf hay || containsSub t needle

/-- Function `findLineNumber` of lib/utils.js: best-effort 1-based line of the
first line containing the (whitespace-normalised) element markup; 0 if not
found. -/
def findLineNumber (html element : List Char) : Nat :=
  let lines := splitChar '\n' html
  let cleanElement := trimChars (collapseWs element)
  let rec go (ls : List (List Char)) (i : Nat) : Nat :=
    match ls with
    | [] => 0
    | line :: rest =>
      if containsSub line cleanElement || containsSub (collapseWs line) cleanElement then
        i + 1
      else go rest (i + 1)
  go lines 0

/-- A settled promise, as inspected by `Promise.allSettled`. -/
inductive Settled (ε β : Type) where
  | fulfilled (v : β)
  | rejected (e : ε)
deriving DecidableEq, Repr

/-- One element of the array built by `processConcurrent`:
`{item, success, result}`. -/
structure ConcEntry (α ε β : Type) where
  item : α
  success : Bool
  result : Settled ε β
deriving DecidableEq, Repr

/-- The entry `processConcurrent` records for one item: `Promise.allSettled`
associates each settled outcome with the item at the same batch index. -/
def settleOf {α ε β : Type} (proc : α → Except ε β) (it : α) : ConcEntry α ε β :=
  match proc it with
  | .ok v => ⟨it, true, .fulfilled v⟩
  | .error e => ⟨it, false, .rejected e⟩

/-- Function `processConcurrent` of lib/utils.js: the batch loop
`for (i = 0; i < items.length; i += concurrency)`, each batch settled with
`Promise.allSettled` (which preserves batch order) and appended in order.
The JavaScript loop does not terminate for `concurrency < 1`; the model is
only quantified at `1 ≤ concurrency`, where `max concurrency 1 = concurrency`. -/
def processConcurrent {α ε β : Type} (proc : α → Except ε β) (concurrency : Nat) :
    List α → List (ConcEntry α ε β)
  | [] => []
  | x :: xs =>
    ((x :: xs).take (max concurrency 1)).map (settleOf proc) ++
      processConcurrent proc concurrency ((x :: xs).drop (max concurrency 1))
termination_by l => l.length
decreasing_by
  simp only [List.length_drop, List.length_cons]
  omega

/-! ## lib/LinkExtractor.js

The cheerio-parsed document is modelled as a list of elements; `cheerio.load`
itself is a platform collaborator.  `extractLinks` receives both the parsed
document and the raw HTML text (used for line lookup), exactly as the source
receives `html` and parses it. -/

/-- A DOM element as seen by the extractor: tag name, attributes in document
order, text content. -/
structure Element where
  tag : List Char
  attrs : List (List Char × List Char)
  text : List Char
deriving DecidableEq, Repr

/-- Attribute lookup, `$(element).attr(name)`. -/
def attrOf (e : Element) (name : List Char) : Option (List Char) :=
  (e.attrs.find? (fun p => p.1 == name)).map (fun p => p.2)

/-- Model of `$.html(element)` for a leaf element (opening tag with
attributes, text, closing tag). -/
def serializeElement (e : Element) : List Char :=
  '<' :: e.tag ++
    (e.attrs.flatMap (fun p => ' ' :: p.1 ++ '=' :: '"' :: p.2 ++ ['"'])) ++
    '>' :: e.text ++ '<' :: '/' :: e.tag ++ ['>']

/-- One extracted link with its metadata (`extractSingleLink`'s result
object); `posLine`/`posHtml` flatten the `position` record. -/
structure ExtractedLink where
  url : List Char
  originalHref : List Char
  linkText : List Char
  element : List Char
  isInternal : Bool
  posLine : Nat
  posHtml : List Char
  foundOn : List Char
  duplicateCount : Nat
deriving DecidableEq, Repr

/-- The `LinkExtractor` class state: its constructor takes no arguments and
hardcodes `this.excludeImages = true`. -/
structure LinkExtractorState where
  excludeImages : Bool
deriving DecidableEq, Repr

/-- The `new LinkExtractor()` constructor. -/
def LinkExtractorState.make : LinkExtractorState := ⟨true⟩

/-- Function `LinkExtractor.extractSingleLink`: read the URL-bearing
attribute, resolve it (null filters the element out), and build the metadata
record. -/
def extractSingleLink (e : Element) (attrName baseUrl html : List Char) :
    Option ExtractedLink :=
  match attrOf e attrName with
  | none => none
  | some href =>
    match resolveUrl href baseUrl with
    | none => none
    | some absoluteUrl =>
      let linkText :=
        if e.tag = str "a" then (trimChars e.text).take 100
        else
          match attrOf e (str "alt") with
          | some alt => if alt = [] then ((attrOf e (str "title")).getD []) else alt
          | none => (attrOf e (str "title")).getD []
      let elementHtml := serializeElement e
      let lineNumber := findLineNumber html elementHtml
      some
        { url := absoluteUrl
          originalHref := href
          linkText := linkText
          element := e.tag
          isInternal := isInternalUrl absoluteUrl baseUrl
          posLine := lineNumber
          posHtml := elementHtml.take 200 ++ (if 200 < elementHtml.length then str "..." else [])
          foundOn := baseUrl
          duplicateCount := 1 }

/-- Bump the `duplicateCount` of the first already-kept link with this URL
(the mutation `existing.duplicateCount = (existing.duplicateCount || 1) + 1`). -/
def bumpDup (url : List Char) : List ExtractedLink → List ExtractedLink
  | [] => []
  | l :: ls =>
    if l.url = url then { l with duplicateCount := l.duplicateCount + 1 } :: ls
    else l :: bumpDup url ls

/-- Function `LinkExtractor.deduplicateLinks`: keep the first link per URL (in
order), counting repeats on it. -/
def deduplicateLinks (links : List ExtractedLink) : List ExtractedLink :=
  let rec go (kept : List ExtractedLink) : List ExtractedLink → List ExtractedLink
    | [] => kept
    | l :: ls =>
      if kept.any (fun k => k.url == l.url) then go (bumpDup l.url kept) ls
      else go (kept ++ [l]) ls
  go [] links

/-- The resource selector `img[src], script[src], link[href]` of the
`!excludeImages` branch, with its per-tag URL attribute. -/
def resourceAttr (e : Element) : Option (List Char) :=
  if e.tag = str "img" then some (str "src")
  else if e.tag = str "script" then some (str "src")
  else if e.tag = str "link" then some (str "href")
  else none

/-- Function `LinkExtractor.extractLinks`: anchors always; resources only when
`excludeImages` is false; then per-URL deduplication. -/
def extractLinks (st : LinkExtractorState) (doc : List Element) (baseUrl html : List Char) :
    List ExtractedLink :=
  let anchors :=
    (doc.filter (fun e => e.tag == str "a" && (attrOf e (str "href")).isSome)).filterMap
      (fun e => extractSingleLink e (str "href") baseUrl html)
  let resources :=
    if !st.excludeImages then
      (doc.filter (fun e => (resourceAttr e).map (fun a => (attrOf e a).isSome) == some true)).filterMap
        (fun e => extractSingleLink e ((resourceAttr e).getD (str "src")) baseUrl html)
    else []
  deduplicateLinks (anchors ++ resources)

/-! ## lib/LinkChecker.js

The axios GET is an external capability; its result is modelled by
`HttpOutcome`: either a resolved response (with `validateStatus: () => true`
axios resolves on every status code) or a rejection carrying an error code
and, possibly, a response status. -/

/-- Outcome of one `axios.get`. -/
inductive HttpOutcome where
  /-- The promise resolved: status code and (optional) final response URL
  (`response.request.res?.responseUrl`). -/
  | response (status : Nat) (responseUrl : Option (List Char))
  /-- The promise rejected: optional `error.code`, optional
  `error.response.status`, and `error.message`. -/
  | failure (code : Option (List Char)) (respStatus : Option Nat) (message : List Char)
deriving DecidableEq, Repr

/-- The object `checkSingleLink` returns: the spread link plus verification
fields.  `responseTime`/`timestamp` (wall-clock) are not modelled; the
success path's header echoes are dropped for the same reason. -/
structure CheckedLink where
  link : ExtractedLink
  status : List Char
  statusCode : Nat
  errorMsg : Option (List Char)
  errorCode : Option (List Char)
  finalUrl : Option (List Char)
  redirected : Bool
deriving DecidableEq, Repr

/-- Function `LinkChecker.checkSingleLink` (classification logic of both the
resolve and the reject paths). -/
def checkSingleLink (link : ExtractedLink) (out : HttpOutcome) : CheckedLink :=
  match out with
  | .response s responseUrl =>
    let status :=
      if s = 404 then str "broken"
      else if 400 ≤ s then str "warning"
      else str "ok"
    { link := link
      status := status
      statusCode := s
      errorMsg := none
      errorCode := none
      finalUrl := some (responseUrl.getD link.url)
      redirected := !(responseUrl == some link.url) }
  | .failure code respStatus message =>
    if code == some (str "ECONNABORTED") || code == some (str "ETIMEDOUT") then
      { link := link, status := str "timeout", statusCode := 0,
        errorMsg := some message, errorCode := code, finalUrl := none, redirected := false }
    else
      match respStatus with
      | some s =>
        { link := link
          status :=
            if s = 404 then str "broken"
            else if 400 ≤ s then str "warning"
            else str "error"
          statusCode := s
          errorMsg := some message, errorCode := code, finalUrl := none, redirected := false }
      | none =>
        { link := link, status := str "error", statusCode := 0,
          errorMsg := some message, errorCode := code, finalUrl := none, redirected := false }

/-- The filter of step 3 of `LinkChecker.scanSinglePage` (lines 69-74):
`url.startsWith('http') && !url.includes('#') &&
!originalHref.startsWith('mailto:') && !originalHref.startsWith('tel:')`. -/
def linksToCheckFilter (links : List ExtractedLink) : List ExtractedLink :=
  links.filter (fun l =>
    (str "http").isPrefixOf l.url && !(l.url.contains '#') &&
      !((str "mailto:").isPrefixOf l.originalHref) &&
      !((str "tel:").isPrefixOf l.originalHref))

/-- A promise rejection value as consulted by the batch error handler
(`result.result?.message`): possibly no `.message` at all. -/
structure RejectReason where
  message : Option (List Char)
deriving DecidableEq, Repr

/-- The per-entry post-processing of `checkLinksInBatch`: fulfilled results
pass through; rejected ones become an `error` record with
`result.result?.message || 'Erreur inconnue'` (JavaScript falsiness: a missing
or empty message falls back). -/
def batchPost (entry : ConcEntry ExtractedLink RejectReason CheckedLink) : CheckedLink :=
  match entry.result with
  | .fulfilled c => c
  | .rejected r =>
    { link := entry.item
      status := str "error"
      statusCode := 0
      errorMsg := some
        (match r.message with
         | some m => if m = [] then str "Erreur inconnue" else m
         | none => str "Erreur inconnue")
      errorCode := none
      finalUrl := none
      redirected := false }

/-- Function `LinkChecker.checkLinksInBatch`: early return on the empty list,
otherwise `processConcurrent` followed by the result mapping. -/
def checkLinksInBatch (check : ExtractedLink → Except RejectReason CheckedLink)
    (maxConcurrent : Nat) (links : List ExtractedLink) : List CheckedLink :=
  if links = [] then []
  else (processConcurrent check maxConcurrent links).map batchPost

/-- The slice of one page's scan result that the `scanWebsite` aggregation
loop reads. -/
structure PageResult where
  pageUrl : List Char
  accessible : Bool
  checkedLinks : List CheckedLink
deriving DecidableEq, Repr

/-- An element of `results.summary.errors404`: the compact record
`{url, foundOn, linkText, position, isInternal}` pushed for a broken link. -/
structure Error404Entry where
  url : List Char
  foundOn : List Char
  linkText : List Char
  posLine : Nat
  posHtml : List Char
  isInternal : Bool
deriving DecidableEq, Repr

/-- Build the compact 404 record from a checked link. -/
def toEntry404 (l : CheckedLink) : Error404Entry :=
  { url := l.link.url
    foundOn := l.link.foundOn
    linkText := l.link.linkText
    posLine := l.link.posLine
    posHtml := l.link.posHtml
    isInternal := l.link.isInternal }

/-- The running summary mutated by the `scanWebsite` loop. -/
structure ScanSummary where
  totalLinks : Nat
  errors404 : List Error404Entry
deriving DecidableEq, Repr

/-- The body of the `forEach` over one page's `checkedLinks` (lines 249-261):
count the link and push a compact record when `status === 'broken' &&
statusCode === 404`. -/
def foldCheckedLink (acc : ScanSummary) (l : CheckedLink) : ScanSummary :=
  { totalLinks := acc.totalLinks + 1
    errors404 :=
      acc.errors404 ++
        (if l.status == str "broken" && l.statusCode == 404 then [toEntry404 l] else []) }

/-- The aggregation performed by `LinkChecker.scanWebsite` over the pages of a
scan (page fetching itself is the HTTP collaborator, supplied as `scanPage`).
JavaScript note: `if (pageResult.checkedLinks)` is always entered, since an
array (even empty) is truthy. -/
def scanWebsiteSummary (scanPage : List Char → PageResult) (urls : List (List Char)) :
    ScanSummary :=
  urls.foldl (fun acc url => ((scanPage url).checkedLinks).foldl foldCheckedLink acc) ⟨0, []⟩

/-! ## api/check-links.js handler -/

/-- Flag `notifySlack` of the handler (line 29):
`request.query.notify !== 'true'` — `none` models an absent query parameter. -/
def notifySlackFlag (notifyQuery : Option (List Char)) : Bool :=
  !(notifyQuery == some (str "true"))

/-- Number of calls the handler makes to the notification sink
(`notifier.notifyErrors404`, line 72): one iff `notifySlack` is set and the
scan produced 404 errors, zero otherwise (lines 69-77). -/
def notificationCount (notifyQuery : Option (List Char)) (errors404 : List Error404Entry) :
    Nat :=
  if notifySlackFlag notifyQuery && !(errors404 = []) then 1 else 0

/-- Guard logic of `SlackNotifier.notifyErrors404` (part_005 lines 123-153):
a message is posted iff a webhook is configured and the error list is
non-empty (the axios post itself is the external sink). -/
def notifyErrors404Sends (webhookUrl : Option (List Char))
    (errors404 : List Error404Entry) : Bool :=
  webhookUrl.isSome && !(errors404 = [])

/-- Outcome of the check-links handler visible to the caller. -/
structure HandlerResult where
  success : Bool
  errorMsg : Option (List Char)
  cleanedUrls : Nat
  scannedUrls : Nat
deriving DecidableEq, Repr

/-- Abort logic of the api/check-links.js handler (lines 38-57): after the
sitemap fetch, the handler throws (yielding a `success: false` response) iff
the raw URL list is empty; the cleaned list is never checked, and a falsy
`maxPages` (absent or 0) leaves the cleaned list untruncated. -/
def checkLinksHandler (prefixes : List (List Char)) (rawUrls : List (List Char))
    (maxPages : Option Nat) : HandlerResult :=
  if rawUrls.length = 0 then
    { success := false, errorMsg := some (str "Aucune URL trouvee dans le sitemap"),
      cleanedUrls := 0, scannedUrls := 0 }
  else
    let cleanUrls := process prefixes rawUrls
    let urlsToScan :=
      match maxPages with
      | some n => if n = 0 then cleanUrls else cleanUrls.take n
      | none => cleanUrls
    { success := true, errorMsg := none,
      cleanedUrls := cleanUrls.length, scannedUrls := urlsToScan.length }

/-! ## List helper lemmas -/

theorem takeWhile_append_of_all (p : Char → Bool) (l2 : List Char) :
    ∀ l1 : List Char, (∀ c ∈ l1, p c = true) →
      (∀ c, l2.head? = some c → p c = false) →
      (l1 ++ l2).takeWhile p = l1 := by
  intro l1
  induction l1 with
  | nil =>
    intro _ h2
    cases l2 with
    | nil => rfl
    | cons c cs =>
      simp [List.takeWhile_cons, h2 c rfl]
  | cons a as ih =>
    intro h1 h2
    simp only [List.cons_append, List.takeWhile_cons, h1 a (List.mem_cons_self a as),
      if_true]
    rw [ih (fun c hc => h1 c (List.mem_cons_of_mem a hc)) h2]

theorem dropWhile_append_of_all (p : Char → Bool) (l2 : List Char) :
    ∀ l1 : List Char, (∀ c ∈ l1, p c = true) →
      (∀ c, l2.head? = some c → p c = false) →
      (l1 ++ l2).dropWhile p = l2 := by
  intro l1
  induction l1 with
  | nil =>
    intro _ h2
    cases l2 with
    | nil => rfl
    | cons c cs =>
      simp [List.dropWhile_cons, h2 c rfl]
  | cons a as ih =>
    intro h1 h2
    simp only [List.cons_append, List.dropWhile_cons, h1 a (List.mem_cons_self a as),
      if_true]
    exact ih (fun c hc => h1 c (List.mem_cons_of_mem a hc)) h2

theorem head_dropWhile_false (p : Char → Bool) :
    ∀ (l : List Char) (c : Char), (l.dropWhile p).head? = some c → p c = false := by
  intro l
  induction l with
  | nil => intro c h; cases h
  | cons a as ih =>
    intro c h
    by_cases ha : p a
    · rw [List.dropWhile_cons, if_pos ha] at h
      exact ih c h
    · rw [List.dropWhile_cons, if_neg ha] at h
      cases h
      exact Bool.of_not_eq_true ha

theorem mem_of_mem_takeWhile {p : Char → Bool} {l : List Char} {c : Char}
    (h : c ∈ l.takeWhile p) : c ∈ l :=
  (List.takeWhile_sublist p).subset h

theorem mem_of_mem_dropChars {l : List Char} {n : Nat} {c : Char}
    (h : c ∈ l.drop n) : c ∈ l :=
  (List.drop_sublist n l).subset h

theorem takeWhile_all {p : Char → Bool} {l : List Char} {c : Char}
    (h : c ∈ l.takeWhile p) : p c = true :=
  List.mem_takeWhile_imp h

theorem dropWhile_eq_self_of_all {p : Char → Bool} {l : List Char}
    (h : ∀ c ∈ l, p c = false) : l.dropWhile p = l := by
  cases l with
  | nil => rfl
  | cons a as =>
    rw [List.dropWhile_cons, if_neg]
    simp [h a (List.mem_cons_self a as)]

theorem trimChars_eq_self {l : List Char} (h : ∀ c ∈ l, isWsChar c = false) :
    trimChars l = l := by
  unfold trimChars
  rw [dropWhile_eq_self_of_all h]
  rw [dropWhile_eq_self_of_all (fun c hc => h c (List.mem_reverse.mp hc))]
  exact List.reverse_reverse l

theorem mem_splitChar_not_sep (sep : Char) :
    ∀ (l : List Char) (s : List Char), s ∈ splitChar sep l → ∀ c ∈ s, !(c = sep) := by
  intro l
  induction l with
  | nil =>
    intro s hs c hc
    simp only [splitChar, List.mem_singleton] at hs
    subst hs
    cases hc
  | cons a as ih =>
    intro s hs c hc
    by_cases ha : a = sep
    · simp only [splitChar, if_pos ha] at hs
      rcases List.mem_cons.mp hs with h | h
      · subst h; cases hc
      · exact ih s h c hc
    · simp only [splitChar, if_neg ha] at hs
      rcases hsplit : splitChar sep as with - | ⟨t, ts⟩
      · rw [hsplit] at hs
        simp only [List.mem_singleton] at hs
        subst hs
        rcases List.mem_singleton.mp hc with h
        subst h
        simpa using ha
      · rw [hsplit] at hs
        rcases List.mem_cons.mp hs with h | h
        · subst h
          rcases List.mem_cons.mp hc with h | h
          · subst h; simpa using ha
          · exact ih t (hsplit ▸ List.mem_cons_self t ts) c h
        · exact ih s (hsplit ▸ List.mem_cons_of_mem t h) c hc

theorem mem_splitChar_mem (sep : Char) :
    ∀ (l : List Char) (s : List Char), s ∈ splitChar sep l → ∀ c ∈ s, c ∈ l := by
  intro l
  induction l with
  | nil =>
    intro s hs c hc
    simp only [splitChar, List.mem_singleton] at hs
    subst hs
    cases hc
  | cons a as ih =>
    intro s hs c hc
    by_cases ha : a = sep
    · simp only [splitChar, if_pos ha] at hs
      rcases List.mem_cons.mp hs with h | h
      · subst h; cases hc
      · exact List.mem_cons_of_mem a (ih s h c hc)
    · simp only [splitChar, if_neg ha] at hs
      rcases hsplit : splitChar sep as with - | ⟨t, ts⟩
      · rw [hsplit] at hs
        simp only [List.mem_singleton] at hs
        subst hs
        rcases List.mem_singleton.mp hc with h
        subst h
        exact List.mem_cons_self c as
      · rw [hsplit] at hs
        rcases List.mem_cons.mp hs with h | h
        · subst h
          rcases List.mem_cons.mp hc with h | h
          · subst h; exact List.mem_cons_self c as
          · exact List.mem_cons_of_mem a (ih t (hsplit ▸ List.mem_cons_self t ts) c h)
        · exact List.mem_cons_of_mem a (ih s (hsplit ▸ List.mem_cons_of_mem t h) c hc)

theorem mem_intercalateChar (sep : Char) :
    ∀ (parts : List (List Char)) (c : Char), c ∈ intercalateChar sep parts →
      c = sep ∨ ∃ s ∈ parts, c ∈ s := by
  intro parts
  induction parts with
  | nil => intro c hc; cases hc
  | cons p ps ih =>
    intro c hc
    cases ps with
    | nil =>
      simp only [intercalateChar] at hc
      exact Or.inr ⟨p, List.mem_singleton.mpr rfl, hc⟩
    | cons q qs =>
      simp only [intercalateChar] at hc
      rcases List.mem_append.mp hc with h | h
      · exact Or.inr ⟨p, List.mem_cons_self p (q :: qs), h⟩
      · rcases List.mem_cons.mp h with h | h
        · exact Or.inl h
        · rcases ih c h with h | ⟨s, hs, hcs⟩
          · exact Or.inl h
          · exact Or.inr ⟨s, List.mem_cons_of_mem p hs, hcs⟩

theorem splitChar_cons_of_ne (sep c : Char) (cs : List Char) (h : ¬c = sep) :
    splitChar sep (c :: cs) =
      (c :: (splitChar sep cs).headD []) :: (splitChar sep cs).tail := by
  simp only [splitChar, if_neg h]
  rcases hsplit : splitChar sep cs with - | ⟨t, ts⟩ <;> simp

theorem splitChar_ne_nil (sep : Char) : ∀ l : List Char, splitChar sep l ≠ [] := by
  intro l
  induction l with
  | nil => simp [splitChar]
  | cons a as ih =>
    by_cases ha : a = sep
    · simp [splitChar, if_pos ha]
    · simp only [splitChar, if_neg ha]
      rcases hsplit : splitChar sep as with - | ⟨t, ts⟩ <;> simp

theorem splitChar_append_sepfree (sep : Char) :
    ∀ (p : List Char) (rest : List Char), (∀ c ∈ p, ¬c = sep) →
      splitChar sep (p ++ sep :: rest) = p :: splitChar sep rest := by
  intro p
  induction p with
  | nil =>
    intro rest _
    simp [splitChar]
  | cons a as ih =>
    intro rest hfree
    have ha : ¬a = sep := hfree a (List.mem_cons_self a as)
    have hrec := ih rest (fun c hc => hfree c (List.mem_cons_of_mem a hc))
    simp only [List.cons_append, splitChar, if_neg ha, List.append_eq, hrec]

theorem splitChar_sepfree (sep : Char) :
    ∀ p : List Char, (∀ c ∈ p, ¬c = sep) → splitChar sep p = [p] := by
  intro p
  induction p with
  | nil => intro _; rfl
  | cons a as ih =>
    intro hfree
    have ha : ¬a = sep := hfree a (List.mem_cons_self a as)
    have hrec := ih (fun c hc => hfree c (List.mem_cons_of_mem a hc))
    simp only [splitChar, if_neg ha, hrec]

theorem splitChar_intercalate (sep : Char) :
    ∀ parts : List (List Char), parts ≠ [] →
      (∀ s ∈ parts, ∀ c ∈ s, ¬c = sep) →
      splitChar sep (intercalateChar sep parts) = parts := by
  intro parts
  induction parts with
  | nil => intro h; cases h rfl
  | cons p ps ih =>
    intro _ hfree
    cases ps with
    | nil =>
      simp only [intercalateChar]
      exact splitChar_sepfree sep p (hfree p (List.mem_singleton.mpr rfl))
    | cons q qs =>
      simp only [intercalateChar]
      rw [splitChar_append_sepfree sep p (intercalateChar sep (q :: qs))
        (hfree p (List.mem_cons_self p (q :: qs)))]
      rw [ih (by simp) (fun s hs c hc => hfree s (List.mem_cons_of_mem p hs) c hc)]

/-! ## Round-trip properties of the URL model -/

theorem isWsChar_cases {c : Char} (h : isWsChar c = true) :
    c = ' ' ∨ c = '\t' ∨ c = '\n' ∨ c = '\r' := by
  have := h
  simp only [isWsChar, Bool.or_eq_true, decide_eq_true_eq] at this
  tauto

theorem schemeChar_ne_colon {c : Char} (h : schemeChar c = true) : ¬c = ':' := by
  intro hc; subst hc; exact absurd h (by decide)

theorem schemeChar_not_ws {c : Char} (h : schemeChar c = true) : isWsChar c = false := by
  by_contra hw
  rcases isWsChar_cases (Bool.of_not_eq_false hw) with hc | hc | hc | hc <;>
    (subst hc; exact absurd h (by decide))

theorem mem_serializeQuery {q : List (List Char × List Char)} {c : Char}
    (h : c ∈ serializeQuery q) :
    c = '?' ∨ c = '&' ∨ c = '=' ∨ ∃ p ∈ q, c ∈ p.1 ∨ c ∈ p.2 := by
  cases q with
  | nil => cases h
  | cons p ps =>
    rcases List.mem_cons.mp h with h | h
    · exact Or.inl h
    · rcases mem_intercalateChar '&' _ c h with h | ⟨s, hs, hcs⟩
      · exact Or.inr (Or.inl h)
      · rcases List.mem_map.mp hs with ⟨pair, hpair, rfl⟩
        rcases List.mem_append.mp hcs with h | h
        · exact Or.inr (Or.inr (Or.inr ⟨pair, hpair, Or.inl h⟩))
        · rcases List.mem_cons.mp h with h | h
          · exact Or.inr (Or.inr (Or.inl h))
          · exact Or.inr (Or.inr (Or.inr ⟨pair, hpair, Or.inr h⟩))

theorem nameOk_facts {l : List Char} (h : nameOk l = true) :
    ∀ c ∈ l, ¬c = '&' ∧ ¬c = '=' ∧ ¬c = '#' ∧ isWsChar c = false := by
  intro c hc
  have := (List.all_eq_true.mp h) c hc
  simp only [Bool.and_eq_true, Bool.not_eq_true', decide_eq_false_iff_not] at this
  tauto

theorem valOk_facts {l : List Char} (h : valOk l = true) :
    ∀ c ∈ l, ¬c = '&' ∧ ¬c = '#' ∧ isWsChar c = false := by
  intro c hc
  have := (List.all_eq_true.mp h) c hc
  simp only [Bool.and_eq_true, Bool.not_eq_true', decide_eq_false_iff_not] at this
  tauto

theorem hostOk_facts {l : List Char} (h : hostOk l = true) :
    ∀ c ∈ l, hostEnd c = false ∧ isWsChar c = false := by
  intro c hc
  have := (List.all_eq_true.mp h) c hc
  simp only [Bool.and_eq_true, Bool.not_eq_true'] at this
  tauto

theorem pathOk_facts {l : List Char} (h : pathOk l = true) :
    (l ≠ [] ∧ l.head? = some '/') ∧ ∀ c ∈ l, pathEnd c = false ∧ isWsChar c = false := by
  cases l with
  | nil => simp [pathOk] at h
  | cons a as =>
    simp only [pathOk, Bool.and_eq_true, decide_eq_true_eq] at h
    refine ⟨⟨by simp, by simp [h.1]⟩, ?_⟩
    intro c hc
    have := (List.all_eq_true.mp h.2) c hc
    simp only [Bool.and_eq_true, Bool.not_eq_true'] at this
    tauto

theorem schemeOk_facts {l : List Char} (h : schemeOk l = true) :
    l ≠ [] ∧ (∀ c ∈ l, schemeChar c = true) ∧
      (∀ c, l.head? = some c → c.isAlpha = true) := by
  cases l with
  | nil => simp [schemeOk] at h
  | cons a as =>
    simp only [schemeOk, Bool.and_eq_true] at h
    refine ⟨by simp, List.all_eq_true.mp h.2, ?_⟩
    intro c hc
    simp only [List.head?_cons, Option.some.injEq] at hc
    subst hc
    exact h.1

theorem serializeUrl_no_ws {u : UrlObj} (h : wfUrl u = true) :
    ∀ c ∈ serializeUrl u, isWsChar c = false := by
  simp only [wfUrl, Bool.and_eq_true] at h
  obtain ⟨⟨⟨⟨hs, hh⟩, hp⟩, hq⟩, hf⟩ := h
  intro c hc
  simp only [serializeUrl, List.mem_append, List.mem_cons] at hc
  rcases hc with hc | hc | hc | hc | ((hc | hc) | hc) | hc
  · exact schemeChar_not_ws ((schemeOk_facts hs).2.1 c hc)
  · subst hc; rfl
  · subst hc; rfl
  · subst hc; rfl
  · exact (hostOk_facts hh c hc).2
  · exact ((pathOk_facts hp).2 c hc).2
  · rcases mem_serializeQuery hc with hc | hc | hc | ⟨p, hpmem, hc⟩
    · subst hc; rfl
    · subst hc; rfl
    · subst hc; rfl
    · have := (List.all_eq_true.mp hq) p hpmem
      simp only [Bool.and_eq_true] at this
      rcases hc with hc | hc
      · exact (nameOk_facts this.1 c hc).2.2.2
      · exact (valOk_facts this.2 c hc).2.2
  · by_cases hfr : u.frag = []
    · rw [hfr] at hc; simp at hc
    · rw [if_neg hfr] at hc
      rcases List.mem_cons.mp hc with hc | hc
      · subst hc; rfl
      · have := (List.all_eq_true.mp hf) c hc
        simpa using this

theorem parsePair_serializePair {n v : List Char} (hn : nameOk n = true) :
    parsePair (serializePair (n, v)) = (n, v) := by
  unfold parsePair serializePair
  have hall : ∀ c ∈ n, (fun c => !(c = '=')) c = true := by
    intro c hc
    simp [(nameOk_facts hn c hc).2.1]
  have hhead : ∀ c : Char, ('=' :: v).head? = some c → (fun c => !(c = '=')) c = false := by
    intro c hcc
    simp only [List.head?_cons, Option.some.injEq] at hcc
    subst hcc
    simp
  rw [takeWhile_append_of_all _ _ n hall hhead, dropWhile_append_of_all _ _ n hall hhead]
  simp

theorem serializePair_ne_nil (p : List Char × List Char) : serializePair p ≠ [] := by
  unfold serializePair
  cases hp : p.1 <;> simp

theorem intercalate_serializePair_ne_nil (q : List (List Char × List Char)) (h : q ≠ []) :
    intercalateChar '&' (q.map serializePair) ≠ [] := by
  cases q with
  | nil => exact absurd rfl h
  | cons p ps =>
    cases ps with
    | nil =>
      simp only [List.map_cons, List.map_nil, intercalateChar]
      exact serializePair_ne_nil p
    | cons p2 ps2 =>
      simp only [List.map_cons, intercalateChar]
      simp

theorem mem_intercalate_serializePair_ne_hash {q : List (List Char × List Char)}
    (hq : queryOk q = true) :
    ∀ c ∈ intercalateChar '&' (q.map serializePair), ¬c = '#' := by
  intro c hc
  rcases mem_intercalateChar '&' _ c hc with h | ⟨s, hs, hcs⟩
  · subst h; decide
  · rcases List.mem_map.mp hs with ⟨pair, hpair, rfl⟩
    have hpok := (List.all_eq_true.mp hq) pair hpair
    simp only [Bool.and_eq_true] at hpok
    rcases List.mem_append.mp hcs with h | h
    · exact (nameOk_facts hpok.1 c h).2.2.1
    · rcases List.mem_cons.mp h with h | h
      · subst h; decide
      · exact (valOk_facts hpok.2 c h).2.1

theorem mem_intercalate_serializePair_ne_amp {q : List (List Char × List Char)}
    (hq : queryOk q = true) :
    ∀ s ∈ q.map serializePair, ∀ c ∈ s, ¬c = '&' := by
  intro s hs c hcs
  rcases List.mem_map.mp hs with ⟨pair, hpair, rfl⟩
  have hpok := (List.all_eq_true.mp hq) pair hpair
  simp only [Bool.and_eq_true] at hpok
  rcases List.mem_append.mp hcs with h | h
  · exact (nameOk_facts hpok.1 c h).1
  · rcases List.mem_cons.mp h with h | h
    · subst h; decide
    · exact (valOk_facts hpok.2 c h).1

theorem parseQuery_serializeQuery {q : List (List Char × List Char)}
    (hq : queryOk q = true) (hne : q ≠ []) :
    parseQuery (intercalateChar '&' (q.map serializePair)) = q := by
  unfold parseQuery
  rw [if_neg (intercalate_serializePair_ne_nil q hne)]
  rw [splitChar_intercalate '&' (q.map serializePair) (by simpa using hne)
    (mem_intercalate_serializePair_ne_amp hq)]
  rw [List.filter_eq_self.mpr]
  · rw [List.map_map]
    have : ∀ p ∈ q, (parsePair ∘ serializePair) p = id p := by
      intro p hp
      have hpok := (List.all_eq_true.mp hq) p hp
      simp only [Bool.and_eq_true] at hpok
      simpa using parsePair_serializePair (v := p.2) hpok.1
    rw [List.map_congr_left this, List.map_id]
  · intro s hs
    rcases List.mem_map.mp hs with ⟨pair, _, rfl⟩
    simpa using serializePair_ne_nil pair

theorem parseQueryFrag_roundtrip {query : List (List Char × List Char)} {frag : List Char}
    (hq : queryOk query = true) :
    parseQueryFrag
        (serializeQuery query ++ (if frag = [] then [] else '#' :: frag)) =
      (query, frag) := by
  cases query with
  | nil =>
    cases hfr : frag with
    | nil => rfl
    | cons f0 ft =>
      simp only [serializeQuery, List.nil_append, if_neg (by simp : ¬(f0 :: ft = []))]
      rfl
  | cons q0 qt =>
    have hinterc := mem_intercalate_serializePair_ne_hash hq
    rw [show serializeQuery (q0 :: qt) =
        '?' :: intercalateChar '&' ((q0 :: qt).map serializePair) from rfl]
    simp only [List.cons_append, parseQueryFrag]
    have htake : ((intercalateChar '&' ((q0 :: qt).map serializePair)) ++
        (if frag = [] then [] else '#' :: frag)).takeWhile (fun c => !(c = '#')) =
        intercalateChar '&' ((q0 :: qt).map serializePair) := by
      apply takeWhile_append_of_all
      · intro c hc
        simp [hinterc c hc]
      · intro c hcc
        cases hfr : frag with
        | nil => rw [hfr] at hcc; simp at hcc
        | cons f0 ft =>
          rw [hfr] at hcc
          rw [if_neg (by simp : ¬(f0 :: ft = []))] at hcc
          simp only [List.head?_cons, Option.some.injEq] at hcc
          subst hcc
          simp
    rw [htake, List.drop_left]
    rw [parseQuery_serializeQuery hq (by simp)]
    cases hfr : frag with
    | nil => rfl
    | cons f0 ft =>
      rw [if_neg (by simp : ¬(f0 :: ft = []))]
      rfl

theorem parseHostPath_roundtrip {sch host path : List Char}
    {query : List (List Char × List Char)} {frag : List Char}
    (hh : hostOk host = true) (hp : pathOk path = true) (hq : queryOk query = true) :
    parseHostPath sch
        (host ++ path ++ serializeQuery query ++
          (if frag = [] then [] else '#' :: frag)) =
      UrlObj.mk sch host path query frag := by
  obtain ⟨⟨hpne, hphead⟩, hpchars⟩ := pathOk_facts hp
  rcases hpath : path with - | ⟨p0, ptail⟩
  · exact absurd hpath hpne
  have hp0 : p0 = '/' := by
    rw [hpath] at hphead; simpa using hphead
  subst hp0
  rw [← hpath]
  have hassoc : host ++ path ++ serializeQuery query ++
      (if frag = [] then [] else '#' :: frag) =
      host ++ (path ++ (serializeQuery query ++
        (if frag = [] then [] else '#' :: frag))) := by
    simp [List.append_assoc]
  rw [hassoc]
  unfold parseHostPath
  dsimp only
  have hhostTake : (host ++ (path ++ (serializeQuery query ++
      (if frag = [] then [] else '#' :: frag)))).takeWhile (fun c => !hostEnd c) =
      host := by
    apply takeWhile_append_of_all
    · intro c hc
      simp [(hostOk_facts hh c hc).1]
    · intro c hcc
      rw [hpath] at hcc
      simp only [List.cons_append, List.head?_cons, Option.some.injEq] at hcc
      subst hcc
      simp [hostEnd]
  rw [hhostTake, List.drop_left]
  have hbound : ∀ c : Char,
      (serializeQuery query ++ (if frag = [] then [] else '#' :: frag)).head? = some c →
        (fun c => !pathEnd c) c = false := by
    intro c hcc
    cases hquery : query with
    | cons q0 qt =>
      rw [hquery] at hcc
      rw [show serializeQuery (q0 :: qt) =
          '?' :: intercalateChar '&' ((q0 :: qt).map serializePair) from rfl] at hcc
      simp only [List.cons_append, List.head?_cons, Option.some.injEq] at hcc
      subst hcc
      simp [pathEnd]
    | nil =>
      rw [hquery] at hcc
      simp only [serializeQuery, List.nil_append] at hcc
      cases hfr : frag with
      | nil => rw [hfr] at hcc; simp at hcc
      | cons f0 ft =>
        rw [hfr] at hcc
        rw [if_neg (by simp : ¬(f0 :: ft = []))] at hcc
        simp only [List.head?_cons, Option.some.injEq] at hcc
        subst hcc
        simp [pathEnd]
  have hpathTake : (path ++ (serializeQuery query ++
      (if frag = [] then [] else '#' :: frag))).takeWhile (fun c => !pathEnd c) = path := by
    apply takeWhile_append_of_all
    · intro c hc
      simp [(hpchars c hc).1]
    · exact hbound
  rw [hpathTake, List.drop_left, if_neg hpne]
  rw [parseQueryFrag_roundtrip hq]

theorem parse_serialize {u : UrlObj} (h : wfUrl u = true) :
    parseUrl (serializeUrl u) = some u := by
  have hws := serializeUrl_no_ws h
  obtain ⟨sch, host, path, query, frag⟩ := u
  simp only [wfUrl, Bool.and_eq_true] at h
  obtain ⟨⟨⟨⟨hs, hh⟩, hp⟩, hq⟩, hf⟩ := h
  obtain ⟨hsne, hschars, hshead⟩ := schemeOk_facts hs
  have hser : serializeUrl (UrlObj.mk sch host path query frag) =
      sch ++ ':' :: '/' :: '/' ::
        (host ++ path ++ serializeQuery query ++
          (if frag = [] then [] else '#' :: frag)) := by
    simp [serializeUrl, List.append_assoc]
  unfold parseUrl
  rw [if_neg (by
    intro hany
    rcases List.any_eq_true.mp hany with ⟨c, hc, hcw⟩
    rw [hws c hc] at hcw
    cases hcw)]
  rw [hser]
  have htakeSch : (sch ++ ':' :: '/' :: '/' ::
      (host ++ path ++ serializeQuery query ++
        (if frag = [] then [] else '#' :: frag))).takeWhile (fun c => !(c = ':')) =
      sch := by
    apply takeWhile_append_of_all
    · intro c hc
      simp [schemeChar_ne_colon (hschars c hc)]
    · intro c hcc
      simp only [List.head?_cons, Option.some.injEq] at hcc
      subst hcc
      simp
  rw [htakeSch]
  dsimp only
  rw [List.drop_left]
  rcases sch with - | ⟨c0, ctail⟩
  · exact absurd rfl hsne
  have hc0 : c0.isAlpha = true := hshead c0 rfl
  have hallsch : (c0 :: ctail).all schemeChar = true := List.all_eq_true.mpr hschars
  simp only [hc0, hallsch, Bool.not_true, Bool.false_eq_true, if_false]
  rw [parseHostPath_roundtrip hh hp hq]

theorem drop_length_takeWhile (p : Char → Bool) (l : List Char) :
    l.drop (l.takeWhile p).length = l.dropWhile p := by
  calc l.drop (l.takeWhile p).length
      = (l.takeWhile p ++ l.dropWhile p).drop (l.takeWhile p).length := by
        rw [List.takeWhile_append_dropWhile]
    _ = l.dropWhile p := List.drop_left _ _

theorem takeWhile_head {p : Char → Bool} {l : List Char} {c : Char} {cs : List Char}
    (h : l.takeWhile p = c :: cs) : l.head? = some c := by
  cases l with
  | nil => cases h
  | cons a as =>
    rw [List.takeWhile_cons] at h
    by_cases ha : p a
    · rw [if_pos ha] at h
      cases h
      rfl
    · rw [if_neg ha] at h
      cases h

theorem hostEnd_cases {c : Char} (h : hostEnd c = true) :
    c = '/' ∨ c = '?' ∨ c = '#' := by
  have := h
  simp only [hostEnd, Bool.or_eq_true, decide_eq_true_eq] at this
  tauto

theorem parseQuery_wf (qs : List Char) (hws : ∀ c ∈ qs, isWsChar c = false)
    (hhash : ∀ c ∈ qs, ¬c = '#') : queryOk (parseQuery qs) = true := by
  unfold parseQuery
  split
  · rfl
  · rw [queryOk, List.all_eq_true]
    intro p hp
    rcases List.mem_map.mp hp with ⟨seg, hseg, rfl⟩
    have hsegmem := (List.mem_filter.mp hseg).1
    have hsub : ∀ c ∈ seg, c ∈ qs := mem_splitChar_mem '&' qs seg hsegmem
    have hamp := mem_splitChar_not_sep '&' qs seg hsegmem
    simp only [Bool.and_eq_true]
    constructor
    · rw [parsePair, nameOk, List.all_eq_true]
      intro c hc
      have hcin : c ∈ seg := mem_of_mem_takeWhile hc
      have h1 : (fun c => !(c = '=')) c = true := takeWhile_all hc
      simp only [Bool.and_eq_true, Bool.not_eq_true', decide_eq_false_iff_not]
      exact ⟨⟨⟨by simpa using hamp c hcin, by simpa using h1⟩,
        hhash c (hsub c hcin)⟩, hws c (hsub c hcin)⟩
    · rw [parsePair, valOk, List.all_eq_true]
      intro c hc
      have hcin : c ∈ seg :=
        (List.dropWhile_sublist _).subset (mem_of_mem_dropChars hc)
      simp only [Bool.and_eq_true, Bool.not_eq_true', decide_eq_false_iff_not]
      exact ⟨⟨by simpa using hamp c hcin, hhash c (hsub c hcin)⟩,
        hws c (hsub c hcin)⟩

theorem parseQueryFrag_wf (r3 : List Char) (h3 : ∀ c ∈ r3, isWsChar c = false) :
    queryOk (parseQueryFrag r3).1 = true ∧ fragOk (parseQueryFrag r3).2 = true := by
  unfold parseQueryFrag
  split
  · next q =>
    dsimp only
    constructor
    · apply parseQuery_wf
      · intro c hc
        exact h3 c (List.mem_cons_of_mem _ (mem_of_mem_takeWhile hc))
      · intro c hc
        have := takeWhile_all hc
        simpa using this
    · rw [fragOk, List.all_eq_true]
      intro c hc
      split at hc
      · next f hfr =>
        have hcq : c ∈ q := by
          have hm : c ∈ '#' :: f := List.mem_cons_of_mem _ hc
          rw [← hfr] at hm
          exact mem_of_mem_dropChars hm
        simp [h3 c (List.mem_cons_of_mem _ hcq)]
      · cases hc
  · next f =>
    refine ⟨rfl, ?_⟩
    rw [fragOk, List.all_eq_true]
    intro c hc
    simp [h3 c (List.mem_cons_of_mem _ hc)]
  · exact ⟨rfl, rfl⟩

theorem parseHostPath_wf (scheme r : List Char) (hsch : schemeOk scheme = true)
    (hwsr : ∀ c ∈ r, isWsChar c = false) : wfUrl (parseHostPath scheme r) = true := by
  unfold parseHostPath
  dsimp only
  rw [drop_length_takeWhile]
  have hr2 : ∀ c ∈ r.dropWhile (fun c => !hostEnd c), c ∈ r :=
    fun c hc => (List.dropWhile_sublist _).subset hc
  simp only [wfUrl, Bool.and_eq_true]
  refine ⟨⟨⟨⟨hsch, ?_⟩, ?_⟩, ?_⟩, ?_⟩
  · rw [hostOk, List.all_eq_true]
    intro c hc
    have h1 : (fun c => !hostEnd c) c = true := takeWhile_all hc
    have h2 := hwsr c (mem_of_mem_takeWhile hc)
    simp only [Bool.and_eq_true]
    exact ⟨h1, by simp [h2]⟩
  · rcases hpr : (r.dropWhile (fun c => !hostEnd c)).takeWhile (fun c => !pathEnd c) with
      - | ⟨c, cs⟩
    · rw [if_pos rfl]
      decide
    · rw [if_neg (by simp)]
      have hhead := takeWhile_head hpr
      have hhe : hostEnd c = true := by
        have := head_dropWhile_false (fun c => !hostEnd c) r c hhead
        simpa using this
      have hmem : c ∈ (r.dropWhile (fun c => !hostEnd c)).takeWhile (fun c => !pathEnd c) := by
        rw [hpr]
        exact List.mem_cons_self c cs
      have hpe : (fun c => !pathEnd c) c = true := takeWhile_all hmem
      have hcslash : c = '/' := by
        rcases hostEnd_cases hhe with h | h | h
        · exact h
        · subst h; simp [pathEnd] at hpe
        · subst h; simp [pathEnd] at hpe
      rw [pathOk]
      subst hcslash
      simp only [Bool.and_eq_true, decide_eq_true_eq]
      refine ⟨trivial, ?_⟩
      rw [List.all_eq_true]
      intro d hd
      have hdin : d ∈ r := hr2 d (mem_of_mem_takeWhile (hpr ▸ hd))
      have hdp : (fun c => !pathEnd c) d = true := takeWhile_all (hpr ▸ hd)
      simp only [Bool.and_eq_true]
      exact ⟨hdp, by simp [hwsr d hdin]⟩
  · exact (parseQueryFrag_wf _ (fun c hc =>
      hwsr c (hr2 c (mem_of_mem_dropChars hc)))).1
  · exact (parseQueryFrag_wf _ (fun c hc =>
      hwsr c (hr2 c (mem_of_mem_dropChars hc)))).2

theorem parseUrl_wf {s : List Char} {u : UrlObj} (h : parseUrl s = some u) :
    wfUrl u = true := by
  unfold parseUrl at h
  split at h
  · cases h
  · next hws =>
    dsimp only at h
    have hwsall : ∀ c ∈ s, isWsChar c = false := by
      intro c hc
      by_contra hcw
      exact hws (List.any_eq_true.mpr ⟨c, hc, Bool.of_not_eq_false hcw⟩)
    split at h
    · next r heq =>
      split at h
      · cases h
      · next c0 ctail heqs =>
        split at h
        · cases h
        · split at h
          · cases h
          · next hb2 =>
            next hb1 =>
            injection h with h
            subst h
            apply parseHostPath_wf
            · rw [heqs] at hb2 ⊢
              simp only [Bool.not_eq_true, Bool.not_eq_false] at hb1 hb2
              have hb1x : c0.isAlpha = true := by simpa using hb1
              have hb2x : (c0 :: ctail).all schemeChar = true := by simpa using hb2
              simp only [schemeOk, Bool.and_eq_true]
              exact ⟨hb1x, hb2x⟩
            · intro c hc
              apply hwsall
              apply mem_of_mem_dropChars (n := (s.takeWhile (fun c => !(c = ':'))).length)
              rw [heq]
              exact List.mem_cons_of_mem _ (List.mem_cons_of_mem _ (List.mem_cons_of_mem _ hc))
    · cases h

/-! ## Properties of the cleaner -/

theorem serializeUrl_ne_nil (u : UrlObj) : serializeUrl u ≠ [] := by
  unfold serializeUrl
  cases hu : u.scheme <;> simp

theorem stripLocale_eq_self {P : List (List Char)} {p : List Char}
    (h : ∀ pre ∈ P, pre.isPrefixOf p = false) : stripLocale P p = p := by
  induction P with
  | nil => rfl
  | cons pre rest ih =>
    rw [stripLocale, if_neg]
    · exact ih (fun q hq => h q (List.mem_cons_of_mem pre hq))
    · simp [h pre (List.mem_cons_self pre rest)]

theorem mem_stripLocale {P : List (List Char)} {p : List Char} {c : Char}
    (h : c ∈ stripLocale P p) : c ∈ p := by
  induction P with
  | nil => exact h
  | cons pre rest ih =>
    rw [stripLocale] at h
    by_cases hpre : pre.isPrefixOf p
    · rw [if_pos hpre] at h
      exact mem_of_mem_dropChars h
    · rw [if_neg hpre] at h
      exact ih h

theorem ensureSlash_head (p : List Char) :
    ensureSlash p ≠ [] ∧ (ensureSlash p).head? = some '/' := by
  unfold ensureSlash
  split
  · next heads tail => exact ⟨by simp, rfl⟩
  · exact ⟨by simp, rfl⟩

theorem mem_ensureSlash {p : List Char} {c : Char} (h : c ∈ ensureSlash p) :
    c = '/' ∨ c ∈ p := by
  unfold ensureSlash at h
  split at h
  · exact Or.inr h
  · rcases List.mem_cons.mp h with h | h
    · exact Or.inl h
    · exact Or.inr h

theorem ensureSlash_eq_self {p : List Char} (h : p.head? = some '/') :
    ensureSlash p = p := by
  unfold ensureSlash
  split
  · rfl
  · next hne =>
    cases p with
    | nil => cases h
    | cons c cs =>
      simp only [List.head?_cons, Option.some.injEq] at h
      subst h
      exact absurd rfl (hne cs)

theorem ensureSlash_ensureSlash (p : List Char) :
    ensureSlash (ensureSlash p) = ensureSlash p :=
  ensureSlash_eq_self (ensureSlash_head p).2

theorem cleanObj_wf {P : List (List Char)} {u : UrlObj} (h : wfUrl u = true) :
    wfUrl (cleanObj P u) = true := by
  simp only [wfUrl, Bool.and_eq_true] at h
  obtain ⟨⟨⟨⟨hs, hh⟩, hp⟩, hq⟩, _⟩ := h
  obtain ⟨⟨hpne, hphead⟩, hpchars⟩ := pathOk_facts hp
  simp only [wfUrl, cleanObj, Bool.and_eq_true]
  refine ⟨⟨⟨⟨hs, hh⟩, ?_⟩, ?_⟩, rfl⟩
  · obtain ⟨hne, hhead⟩ := ensureSlash_head (stripLocale P u.path)
    rcases hes : ensureSlash (stripLocale P u.path) with - | ⟨c, cs⟩
    · exact absurd hes hne
    rw [hes] at hhead
    simp only [List.head?_cons, Option.some.injEq] at hhead
    subst hhead
    rw [pathOk]
    simp only [Bool.and_eq_true, decide_eq_true_eq]
    refine ⟨trivial, ?_⟩
    rw [List.all_eq_true]
    intro d hd
    have hd2 : d ∈ ensureSlash (stripLocale P u.path) := by
      rw [hes]; exact hd
    rcases mem_ensureSlash hd2 with h | h
    · subst h; decide
    · have := hpchars d (mem_stripLocale h)
      simp only [Bool.and_eq_true]
      exact ⟨by simp [this.1], by simp [this.2]⟩
  · rw [queryOk, List.all_eq_true]
    intro p hp2
    exact (List.all_eq_true.mp hq) p (List.mem_filter.mp hp2).1

/-- The pathname of a URL string, read back through the URL model (`[]` when
the string does not parse). -/
def urlPathname (s : List Char) : List Char :=
  match parseUrl s with
  | some u => u.path
  | none => []

/-- The scheme of a URL string, read back through the URL model. -/
def urlScheme (s : List Char) : Option (List Char) :=
  (parseUrl s).map (fun u => u.scheme)

theorem cleanObj_idem {P : List (List Char)} {u : UrlObj}
    (hwf : wfUrl (cleanObj P u) = true)
    (hstrip : stripLocale P (cleanObj P u).path = (cleanObj P u).path) :
    cleanObj P (cleanObj P u) = cleanObj P u := by
  simp only [wfUrl, Bool.and_eq_true] at hwf
  obtain ⟨⟨⟨⟨_, _⟩, hp⟩, _⟩, _⟩ := hwf
  obtain ⟨⟨_, hphead⟩, _⟩ := pathOk_facts hp
  simp only [cleanObj] at hstrip hphead ⊢
  simp only [UrlObj.mk.injEq]
  refine ⟨trivial, trivial, ?_, ?_, trivial⟩
  · rw [hstrip]
    exact ensureSlash_eq_self hphead
  · unfold deleteParams
    rw [List.filter_eq_self]
    intro p hp2
    exact (List.mem_filter.mp hp2).2

theorem cleanSingleUrl_inv {P : List (List Char)} {s v : List Char}
    (h : cleanSingleUrl P s = some v) :
    ∃ u, parseUrl (trimChars s) = some u ∧ v = serializeUrl (cleanObj P u) := by
  unfold cleanSingleUrl at h
  split at h
  · cases h
  · split at h
    · cases h
    · next u hu =>
      injection h with h
      exact ⟨u, hu, h.symm⟩

theorem cleanSingleUrl_of_serialize {P : List (List Char)} {u : UrlObj}
    (hwf : wfUrl u = true) :
    cleanSingleUrl P (serializeUrl u) = some (serializeUrl (cleanObj P u)) := by
  unfold cleanSingleUrl
  rw [if_neg (serializeUrl_ne_nil u)]
  rw [trimChars_eq_self (serializeUrl_no_ws hwf), parse_serialize hwf]

theorem cleanSingleUrl_idem (P : List (List Char)) (s v : List Char)
    (h : cleanSingleUrl P s = some v)
    (hnp : ∀ pre ∈ P, pre.isPrefixOf (urlPathname v) = false) :
    cleanSingleUrl P v = some v := by
  obtain ⟨u, hu, hv⟩ := cleanSingleUrl_inv h
  have hwfu : wfUrl u = true := parseUrl_wf hu
  have hwfc : wfUrl (cleanObj P u) = true := cleanObj_wf hwfu
  have hparse : parseUrl v = some (cleanObj P u) := by
    rw [hv]; exact parse_serialize hwfc
  have hpathv : urlPathname v = (cleanObj P u).path := by
    rw [urlPathname, hparse]
  rw [hv, cleanSingleUrl_of_serialize hwfc]
  rw [cleanObj_idem hwfc (stripLocale_eq_self (by rw [← hpathv]; exact hnp))]

theorem mem_insertLe {x y : List Char} :
    ∀ l : List (List Char), y ∈ insertLe x l → y = x ∨ y ∈ l := by
  intro l
  induction l with
  | nil =>
    intro h
    simp only [insertLe, List.mem_singleton] at h
    exact Or.inl h
  | cons a as ih =>
    intro h
    rw [insertLe] at h
    split at h
    · rcases List.mem_cons.mp h with h | h
      · exact Or.inl h
      · exact Or.inr h
    · rcases List.mem_cons.mp h with h | h
      · exact Or.inr (h ▸ List.mem_cons_self a as)
      · rcases ih h with h | h
        · exact Or.inl h
        · exact Or.inr (List.mem_cons_of_mem a h)

theorem mem_sortLex {y : List Char} :
    ∀ l : List (List Char), y ∈ sortLex l → y ∈ l := by
  intro l
  induction l with
  | nil => intro h; cases h
  | cons a as ih =>
    intro h
    rw [sortLex] at h
    rcases mem_insertLe _ h with h | h
    · exact h ▸ List.mem_cons_self a as
    · exact List.mem_cons_of_mem a (ih h)

theorem mem_dedupKeepFirstGo {y : List Char} :
    ∀ (l seen : List (List Char)), y ∈ dedupKeepFirstGo seen l → y ∈ l := by
  intro l
  induction l with
  | nil => intro seen h; cases h
  | cons a as ih =>
    intro seen h
    rw [dedupKeepFirstGo] at h
    split at h
    · exact List.mem_cons_of_mem a (ih seen h)
    · rcases List.mem_cons.mp h with h | h
      · exact h ▸ List.mem_cons_self a as
      · exact List.mem_cons_of_mem a (ih (a :: seen) h)

theorem mem_dedupKeepFirst {y : List Char} :
    ∀ l : List (List Char), y ∈ dedupKeepFirst l → y ∈ l :=
  fun l h => mem_dedupKeepFirstGo l [] h

theorem process_provenance {P urls : List (List Char)} {u : List Char}
    (h : u ∈ process P urls) : ∃ r ∈ urls, cleanSingleUrl P r = some u := by
  unfold process at h
  have h1 := mem_dedupKeepFirst _ (mem_sortLex _ h)
  have h2 := (List.mem_filter.mp h1).1
  have h3 := (List.mem_filter.mp h2).1
  rcases List.mem_filterMap.mp h3 with ⟨r, hr, hcl⟩
  exact ⟨r, hr, hcl⟩

theorem cleanSingleUrl_scheme {P : List (List Char)} {r u : List Char}
    (h : cleanSingleUrl P r = some u) :
    urlScheme u = urlScheme (trimChars r) := by
  obtain ⟨w, hw, hu⟩ := cleanSingleUrl_inv h
  have hwf : wfUrl w = true := parseUrl_wf hw
  have hwfc : wfUrl (cleanObj P w) = true := cleanObj_wf hwf
  rw [urlScheme, urlScheme, hw, hu, parse_serialize hwfc]
  rfl

theorem isPrefixOf_through_colon {pre a x y : List Char}
    (hp : pre.isPrefixOf (a ++ ':' :: x) = true) (hnc : ∀ d ∈ pre, ¬d = ':') :
    pre.isPrefixOf (a ++ ':' :: y) = true := by
  induction pre generalizing a with
  | nil => simp [List.isPrefixOf]
  | cons d ds ih =>
    cases a with
    | nil =>
      simp only [List.nil_append, List.isPrefixOf, Bool.and_eq_true, beq_iff_eq] at hp
      exact absurd hp.1 (hnc d (List.mem_cons_self d ds))
    | cons b bs =>
      simp only [List.cons_append, List.isPrefixOf, Bool.and_eq_true] at hp ⊢
      exact ⟨hp.1, ih hp.2 (fun e he => hnc e (List.mem_cons_of_mem d he))⟩

/-! ## Properties of the batch machinery and the scan aggregation -/

theorem processConcurrent_eq_map {α ε β : Type} (proc : α → Except ε β) (c : Nat)
    (hc : 1 ≤ c) :
    ∀ items : List α, processConcurrent proc c items = items.map (settleOf proc) := by
  have hmax : max c 1 = c := Nat.max_eq_left hc
  have key : ∀ (n : Nat) (items : List α), items.length ≤ n →
      processConcurrent proc c items = items.map (settleOf proc) := by
    intro n
    induction n with
    | zero =>
      intro items hl
      cases items with
      | nil => rw [processConcurrent]; rfl
      | cons x xs => simp at hl
    | succ n ih =>
      intro items hl
      cases items with
      | nil => rw [processConcurrent]; rfl
      | cons x xs =>
        rw [processConcurrent, hmax]
        have hdrop : ((x :: xs).drop c).length ≤ n := by
          simp only [List.length_drop, List.length_cons]
          simp only [List.length_cons] at hl
          omega
        rw [ih _ hdrop]
        conv_rhs => rw [← List.take_append_drop c (x :: xs)]
        rw [List.map_append]
  intro items
  exact key items.length items (Nat.le_refl _)

theorem checkLinksInBatch_eq_map (check : ExtractedLink → Except RejectReason CheckedLink)
    (c : Nat) (hc : 1 ≤ c) (links : List ExtractedLink) :
    checkLinksInBatch check c links = links.map (fun l => batchPost (settleOf check l)) := by
  unfold checkLinksInBatch
  split
  · next hnil => rw [hnil]; rfl
  · rw [processConcurrent_eq_map check c hc, List.map_map]
    rfl

/-- The predicate selecting 404 entries in the `scanWebsite` loop. -/
def isBroken404 (l : CheckedLink) : Bool :=
  l.status == str "broken" && l.statusCode == 404

theorem foldCheckedLink_spec :
    ∀ (ls : List CheckedLink) (acc : ScanSummary),
      (ls.foldl foldCheckedLink acc).errors404 =
          acc.errors404 ++ (ls.filter isBroken404).map toEntry404 ∧
        (ls.foldl foldCheckedLink acc).totalLinks = acc.totalLinks + ls.length := by
  intro ls
  induction ls with
  | nil => intro acc; simp
  | cons l ls ih =>
    intro acc
    rw [List.foldl_cons]
    obtain ⟨ih1, ih2⟩ := ih (foldCheckedLink acc l)
    constructor
    · rw [ih1]
      by_cases hb : isBroken404 l = true
      · rw [List.filter_cons, if_pos hb]
        show (acc.errors404 ++ _) ++ _ = _
        rw [show (if l.status == str "broken" && l.statusCode == 404
            then [toEntry404 l] else []) = [toEntry404 l] from by
          rw [if_pos]; exact hb]
        simp
      · rw [List.filter_cons, if_neg hb]
        show (acc.errors404 ++ _) ++ _ = _
        rw [show (if l.status == str "broken" && l.statusCode == 404
            then [toEntry404 l] else []) = [] from by
          rw [if_neg]; exact hb]
        simp
    · rw [ih2]
      show acc.totalLinks + 1 + ls.length = _
      simp only [List.length_cons]
      omega

theorem scanWebsiteSummary_spec (scanPage : List Char → PageResult)
    (urls : List (List Char)) :
    (scanWebsiteSummary scanPage urls).errors404 =
        (((urls.map scanPage).flatMap (fun p => p.checkedLinks)).filter isBroken404).map
          toEntry404 ∧
      (scanWebsiteSummary scanPage urls).totalLinks =
        ((urls.map scanPage).flatMap (fun p => p.checkedLinks)).length := by
  have key : ∀ (us : List (List Char)) (acc : ScanSummary),
      (us.foldl (fun acc url => ((scanPage url).checkedLinks).foldl foldCheckedLink acc)
          acc).errors404 =
        acc.errors404 ++
          (((us.map scanPage).flatMap (fun p => p.checkedLinks)).filter isBroken404).map
            toEntry404 ∧
      (us.foldl (fun acc url => ((scanPage url).checkedLinks).foldl foldCheckedLink acc)
          acc).totalLinks =
        acc.totalLinks + ((us.map scanPage).flatMap (fun p => p.checkedLinks)).length := by
    intro us
    induction us with
    | nil => intro acc; simp
    | cons u us ih =>
      intro acc
      rw [List.foldl_cons]
      obtain ⟨ih1, ih2⟩ := ih (((scanPage u).checkedLinks).foldl foldCheckedLink acc)
      obtain ⟨hin1, hin2⟩ := foldCheckedLink_spec ((scanPage u).checkedLinks) acc
      constructor
      · rw [ih1, hin1]
        simp [List.filter_append, List.append_assoc]
      · rw [ih2, hin2]
        simp only [List.map_cons, List.flatMap_cons, List.length_append]
        omega
  obtain ⟨h1, h2⟩ := key urls ⟨0, []⟩
  exact ⟨by simpa using h1, by simpa using h2⟩

/-! ## Properties of the extractor -/

theorem resolveUrl_guards {href base u : List Char} (h : resolveUrl href base = some u) :
    (str "mailto:").isPrefixOf href = false ∧ (str "tel:").isPrefixOf href = false := by
  unfold resolveUrl at h
  split at h
  · cases h
  · next hcond =>
    simp only [Bool.or_eq_true, decide_eq_true_eq, not_or] at hcond
    obtain ⟨⟨⟨⟨h1, h2⟩, h3⟩, hm⟩, ht⟩ := hcond
    exact ⟨Bool.eq_false_iff.mpr hm, Bool.eq_false_iff.mpr ht⟩

theorem extractSingleLink_fields {e : Element} {a base html : List Char}
    {l : ExtractedLink} (h : extractSingleLink e a base html = some l) :
    l.element = e.tag ∧ ∃ href, attrOf e a = some href ∧ l.originalHref = href ∧
      resolveUrl href base = some l.url := by
  unfold extractSingleLink at h
  split at h
  · cases h
  · next href hhref =>
    split at h
    · cases h
    · next absu hres =>
      injection h with h
      subst h
      exact ⟨rfl, href, hhref, rfl, hres⟩

theorem bumpDup_fields {url : List Char} :
    ∀ (ls : List ExtractedLink) (l : ExtractedLink), l ∈ bumpDup url ls →
      ∃ l0 ∈ ls, l.element = l0.element ∧ l.url = l0.url ∧
        l.originalHref = l0.originalHref := by
  intro ls
  induction ls with
  | nil => intro l h; cases h
  | cons a as ih =>
    intro l h
    rw [bumpDup] at h
    split at h
    · rcases List.mem_cons.mp h with h | h
      · exact ⟨a, List.mem_cons_self a as, by subst h; exact ⟨rfl, rfl, rfl⟩⟩
      · exact ⟨l, List.mem_cons_of_mem a h, rfl, rfl, rfl⟩
    · rcases List.mem_cons.mp h with h | h
      · exact ⟨a, List.mem_cons_self a as, by subst h; exact ⟨rfl, rfl, rfl⟩⟩
      · obtain ⟨l0, hl0, hf⟩ := ih l h
        exact ⟨l0, List.mem_cons_of_mem a hl0, hf⟩

theorem deduplicateLinks_go_mem :
    ∀ (rest kept : List ExtractedLink) (l : ExtractedLink),
      l ∈ deduplicateLinks.go kept rest →
      ∃ l0, (l0 ∈ kept ∨ l0 ∈ rest) ∧ l.element = l0.element ∧ l.url = l0.url ∧
        l.originalHref = l0.originalHref := by
  intro rest
  induction rest with
  | nil =>
    intro kept l h
    rw [deduplicateLinks.go] at h
    exact ⟨l, Or.inl h, rfl, rfl, rfl⟩
  | cons r rs ih =>
    intro kept l h
    rw [deduplicateLinks.go] at h
    split at h
    · obtain ⟨l0, hl0, hf⟩ := ih _ l h
      rcases hl0 with hl0 | hl0
      · obtain ⟨l1, hl1, hf2⟩ := bumpDup_fields _ l0 hl0
        exact ⟨l1, Or.inl hl1, hf.1.trans hf2.1, hf.2.1.trans hf2.2.1,
          hf.2.2.trans hf2.2.2⟩
      · exact ⟨l0, Or.inr (List.mem_cons_of_mem r hl0), hf⟩
    · obtain ⟨l0, hl0, hf⟩ := ih _ l h
      rcases hl0 with hl0 | hl0
      · rcases List.mem_append.mp hl0 with hl0 | hl0
        · exact ⟨l0, Or.inl hl0, hf⟩
        · have heq0 : l0 = r := List.mem_singleton.mp hl0
          exact ⟨r, Or.inr (List.mem_cons_self r rs), heq0 ▸ hf⟩
      · exact ⟨l0, Or.inr (List.mem_cons_of_mem r hl0), hf⟩

theorem mem_deduplicateLinks {links : List ExtractedLink} {l : ExtractedLink}
    (h : l ∈ deduplicateLinks links) :
    ∃ l0 ∈ links, l.element = l0.element ∧ l.url = l0.url ∧
      l.originalHref = l0.originalHref := by
  obtain ⟨l0, hl0, hf⟩ := deduplicateLinks_go_mem links [] l h
  rcases hl0 with hl0 | hl0
  · cases hl0
  · exact ⟨l0, hl0, hf⟩

theorem mem_extractLinks_make {doc : List Element} {base html : List Char}
    {l : ExtractedLink} (h : l ∈ extractLinks LinkExtractorState.make doc base html) :
    ∃ e ∈ doc, e.tag = str "a" ∧ ∃ l0, extractSingleLink e (str "href") base html = some l0 ∧
      l.element = l0.element ∧ l.url = l0.url ∧ l.originalHref = l0.originalHref := by
  unfold extractLinks at h
  rw [show LinkExtractorState.make.excludeImages = true from rfl] at h
  simp only [Bool.not_true, Bool.false_eq_true, if_false, List.append_nil] at h
  obtain ⟨l0, hl0, hf⟩ := mem_deduplicateLinks h
  rcases List.mem_filterMap.mp hl0 with ⟨e, he, hee⟩
  have hepred := (List.mem_filter.mp he).2
  simp only [Bool.and_eq_true, beq_iff_eq] at hepred
  exact ⟨e, (List.mem_filter.mp he).1, hepred.1, l0, hee, hf⟩

theorem parseUrl_shape {s : List Char} {w : UrlObj} (h : parseUrl s = some w) :
    ∃ x, s = w.scheme ++ ':' :: x := by
  unfold parseUrl at h
  split at h
  · cases h
  · dsimp only at h
    split at h
    · next r heq =>
      split at h
      · cases h
      · next c0 ctail heqs =>
        split at h
        · cases h
        · split at h
          · cases h
          · injection h with h
            subst h
            refine ⟨'/' :: '/' :: r, ?_⟩
            have hdw : s.dropWhile (fun c => !(c = ':')) = ':' :: '/' :: '/' :: r := by
              rw [← drop_length_takeWhile]
              exact heq
            show s = s.takeWhile (fun c => !(c = ':')) ++ ':' :: '/' :: '/' :: r
            rw [← hdw, List.takeWhile_append_dropWhile]
    · cases h

/-! ## Concrete sample data used by witnesses and counterexamples -/

/-- A sample extracted link (C1). -/
def c1link : ExtractedLink :=
  { url := str "https://example.com/missing"
    originalHref := str "/missing"
    linkText := str "x"
    element := str "a"
    isInternal := true
    posLine := 2
    posHtml := str "<a href=\"/missing\">x</a>"
    foundOn := str "https://example.com/"
    duplicateCount := 1 }

/-- A sample 404 record (C3). -/
def c3entry : Error404Entry :=
  { url := str "https://example.com/missing"
    foundOn := str "https://example.com/"
    linkText := str "x"
    posLine := 2
    posHtml := str "<a href=\"/missing\">x</a>"
    isInternal := true }

/-- A one-anchor document whose link target has scheme `httpfoo` (C6). -/
def c6doc : List Element := [⟨str "a", [(str "href", str "httpfoo://host/x")], str "f"⟩]

def c6base : List Char := str "https://example.com/page"

def c6html : List Char := str "<a href=\"httpfoo://host/x\">f</a>"

/-- The link the extractor produces from `c6doc` (checked by evaluation in
`claim_C6_counterexample`). -/
def c6link : ExtractedLink :=
  { url := str "httpfoo://host/x"
    originalHref := str "httpfoo://host/x"
    linkText := str "f"
    element := str "a"
    isInternal := false
    posLine := 1
    posHtml := str "<a href=\"httpfoo://host/x\">f</a>"
    foundOn := str "https://example.com/page"
    duplicateCount := 1 }

/-- Sample links for the batch-order witness (C8). -/
def c8links : List ExtractedLink :=
  [{ c1link with url := str "https://example.com/one" },
   { c1link with url := str "https://example.com/two" },
   { c1link with url := str "https://example.com/three" }]

/-- A check function returning a definite outcome per link (C8). -/
def c8check (l : ExtractedLink) : Except RejectReason CheckedLink :=
  if l.url = str "https://example.com/two" then .error ⟨some (str "boom")⟩
  else .ok (checkSingleLink l (.response 200 none))

/-- An anchor-plus-image document (C10). -/
def c10doc : List Element :=
  [⟨str "a", [(str "href", str "/p")], str "t"⟩,
   ⟨str "img", [(str "src", str "/i.png")], []⟩]

def c10base : List Char := str "https://example.com/home"

def c10html : List Char := str "<a href=\"/p\">t</a>"

/-- The link the extractor produces from `c10doc` (checked by evaluation in
the C10 witness). -/
def c10link : ExtractedLink :=
  { url := str "https://example.com/p"
    originalHref := str "/p"
    linkText := str "t"
    element := str "a"
    isInternal := true
    posLine := 1
    posHtml := str "<a href=\"/p\">t</a>"
    foundOn := str "https://example.com/home"
    duplicateCount := 1 }

/-! ## The claims -/

/-- C1: for a link whose GET yields a response, `checkSingleLink` records the
numeric status and classifies 404 as `broken`, other >= 400 as `warning`,
< 400 as `ok`; a connection-aborted/timed-out rejection yields `timeout` with
`statusCode = 0`; any other rejection without an HTTP status yields `error`
with `statusCode = 0`. -/
theorem claim_C1_checkSingleLink_classification
    (link : ExtractedLink) (s : Nat) (ru : Option (List Char))
    (code : Option (List Char)) (rst : Option Nat) (msg : List Char) :
    ((checkSingleLink link (.response s ru)).statusCode = s) ∧
    (s = 404 → (checkSingleLink link (.response s ru)).status = str "broken") ∧
    (400 ≤ s → ¬s = 404 → (checkSingleLink link (.response s ru)).status = str "warning") ∧
    (s < 400 → (checkSingleLink link (.response s ru)).status = str "ok") ∧
    ((code = some (str "ECONNABORTED") ∨ code = some (str "ETIMEDOUT")) →
      (checkSingleLink link (.failure code rst msg)).status = str "timeout" ∧
      (checkSingleLink link (.failure code rst msg)).statusCode = 0) ∧
    (¬(code = some (str "ECONNABORTED") ∨ code = some (str "ETIMEDOUT")) →
      (checkSingleLink link (.failure code none msg)).status = str "error" ∧
      (checkSingleLink link (.failure code none msg)).statusCode = 0) := by
  refine ⟨rfl, ?_, ?_, ?_, ?_, ?_⟩
  · intro hs
    show (if s = 404 then str "broken"
      else if 400 ≤ s then str "warning" else str "ok") = str "broken"
    rw [if_pos hs]
  · intro h1 h2
    show (if s = 404 then str "broken"
      else if 400 ≤ s then str "warning" else str "ok") = str "warning"
    rw [if_neg h2, if_pos h1]
  · intro h1
    show (if s = 404 then str "broken"
      else if 400 ≤ s then str "warning" else str "ok") = str "ok"
    rw [if_neg (by omega), if_neg (by omega)]
  · intro hcode
    have hb : (code == some (str "ECONNABORTED") || code == some (str "ETIMEDOUT")) = true := by
      rcases hcode with h | h <;> simp [h]
    constructor
    · unfold checkSingleLink
      dsimp only
      rw [if_pos hb]
    · unfold checkSingleLink
      dsimp only
      rw [if_pos hb]
  · intro hcode
    have hb : (code == some (str "ECONNABORTED") || code == some (str "ETIMEDOUT")) = false := by
      simp only [Bool.or_eq_false_iff, beq_eq_false_iff_ne, ne_eq]
      exact ⟨fun h => hcode (Or.inl h), fun h => hcode (Or.inr h)⟩
    constructor
    · unfold checkSingleLink
      dsimp only
      rw [if_neg (by simp [hb])]
    · unfold checkSingleLink
      dsimp only
      rw [if_neg (by simp [hb])]

/-- Witness for C1 at concrete statuses and error codes. -/
theorem claim_C1_checkSingleLink_classification_witness :
    (checkSingleLink c1link (.response 404 none)).status = str "broken" ∧
    (checkSingleLink c1link (.response 404 none)).statusCode = 404 ∧
    (checkSingleLink c1link (.response 500 none)).status = str "warning" ∧
    (checkSingleLink c1link (.response 200 none)).status = str "ok" ∧
    (checkSingleLink c1link
        (.failure (some (str "ECONNABORTED")) none (str "timeout"))).status = str "timeout" ∧
    (checkSingleLink c1link
        (.failure (some (str "ECONNABORTED")) none (str "timeout"))).statusCode = 0 ∧
    (checkSingleLink c1link
        (.failure (some (str "ECONNREFUSED")) none (str "refused"))).status = str "error" ∧
    (checkSingleLink c1link
        (.failure (some (str "ECONNREFUSED")) none (str "refused"))).statusCode = 0 := by
  have h404 := claim_C1_checkSingleLink_classification c1link 404 none none none []
  have h500 := claim_C1_checkSingleLink_classification c1link 500 none none none []
  have h200 := claim_C1_checkSingleLink_classification c1link 200 none none none []
  have hto := claim_C1_checkSingleLink_classification c1link 0 none
    (some (str "ECONNABORTED")) none (str "timeout")
  have herr := claim_C1_checkSingleLink_classification c1link 0 none
    (some (str "ECONNREFUSED")) none (str "refused")
  refine ⟨h404.2.1 rfl, h404.1, h500.2.2.1 (by omega) (by omega),
    h200.2.2.2.1 (by omega), (hto.2.2.2.2.1 (Or.inl rfl)).1, (hto.2.2.2.2.1 (Or.inl rfl)).2,
    (herr.2.2.2.2.2 (by decide)).1, (herr.2.2.2.2.2 (by decide)).2⟩

/-- C2: the errors404 list produced by the scanWebsite aggregation is exactly
the broken-404 sublist of all checked links across the scanned pages, each
mapped to its compact `{url, foundOn, linkText, position, isInternal}`
record. -/
theorem claim_C2_errors404_exact (scanPage : List Char → PageResult)
    (urls : List (List Char)) :
    (scanWebsiteSummary scanPage urls).errors404 =
      ((((urls.map scanPage).flatMap (fun p => p.checkedLinks)).filter
          isBroken404).map toEntry404) :=
  (scanWebsiteSummary_spec scanPage urls).1

/-- C3 counterexample: the notification sink is not invoked for every scan
with a non-empty errors404 list — the check-links handler skips it when the
notify query flag equals the string true (the flag test
`request.query.notify !== 'true'` disables it). -/
theorem claim_C3_counterexample :
    ¬(∀ (q : Option (List Char)) (errors404 : List Error404Entry),
        (errors404 ≠ [] → notificationCount q errors404 = 1) ∧
        (errors404 = [] → notificationCount q errors404 = 0)) := by
  intro hall
  have h := (hall (some (str "true")) [c3entry]).1 (by simp)
  exact absurd h (by decide)

/-- C3 amended: the sink is invoked exactly once when notifications are
enabled (notify query different from the string true) and errors404 is
non-empty; zero times when errors404 is empty or notifications are
disabled. -/
theorem claim_C3_notification_iff (q : Option (List Char))
    (errors404 : List Error404Entry) :
    (errors404 = [] → notificationCount q errors404 = 0) ∧
    (notifySlackFlag q = true → errors404 ≠ [] → notificationCount q errors404 = 1) ∧
    (notifySlackFlag q = false → notificationCount q errors404 = 0) := by
  unfold notificationCount
  refine ⟨?_, ?_, ?_⟩
  · intro h
    subst h
    simp
  · intro hq hne
    rw [if_pos]
    simp [hq, hne]
  · intro hq
    simp [hq]

/-- Witness for the amended C3 at a concrete query and error list. -/
theorem claim_C3_notification_iff_witness :
    notificationCount none [c3entry] = 1 ∧ notificationCount none [] = 0 :=
  ⟨(claim_C3_notification_iff none [c3entry]).2.1 (by decide) (by simp),
   (claim_C3_notification_iff none []).1 rfl⟩

/-- C4 counterexample: with the regional prefix table (the cleaner version of
src/unnamed/part_004), `/en/` is not in the table, so the example list
normalizes to two URLs, not to the singleton the claim states. -/
theorem claim_C4_counterexample :
    process languagePrefixesRegional
        [str "https://example.com/a", str "https://example.com/en/a"] =
      [str "https://example.com/a", str "https://example.com/en/a"] ∧
    ¬process languagePrefixesRegional
        [str "https://example.com/a", str "https://example.com/en/a"] =
      [str "https://example.com/a"] := by
  constructor
  · decide
  · decide

/-- C4 amended: under the regional table the example keeps both URLs; the
collapse happens for prefixes that are in the table (for example `/en-us/`),
and the short-table cleaner version (src/unnamed/part_003, whose table has
`/en/`) does produce the singleton of the claim. -/
theorem claim_C4_normalization_example :
    process languagePrefixesRegional
        [str "https://example.com/a", str "https://example.com/en/a"] =
      [str "https://example.com/a", str "https://example.com/en/a"] ∧
    process languagePrefixesRegional
        [str "https://example.com/a", str "https://example.com/en-us/a"] =
      [str "https://example.com/a"] ∧
    process languagePrefixesSimple
        [str "https://example.com/a", str "https://example.com/en/a"] =
      [str "https://example.com/a"] := by
  refine ⟨by decide, by decide, by decide⟩

/-- C5 counterexample: `cleanSingleUrl` is not idempotent for either prefix
table — a path stacking two locale prefixes loses one prefix per
application. -/
theorem claim_C5_counterexample :
    (¬∀ u v : List Char, cleanSingleUrl languagePrefixesSimple u = some v →
        cleanSingleUrl languagePrefixesSimple v = some v) ∧
    (¬∀ u v : List Char, cleanSingleUrl languagePrefixesRegional u = some v →
        cleanSingleUrl languagePrefixesRegional v = some v) := by
  constructor
  · intro hall
    have h1 : cleanSingleUrl languagePrefixesSimple (str "https://example.com/en/fr/a") =
        some (str "https://example.com/fr/a") := by decide
    exact absurd (hall _ _ h1) (by decide)
  · intro hall
    have h1 : cleanSingleUrl languagePrefixesRegional
        (str "https://example.com/en-us/en-gb/a") =
        some (str "https://example.com/en-gb/a") := by decide
    exact absurd (hall _ _ h1) (by decide)

/-- C5 amended: `cleanSingleUrl` is idempotent on every URL whose cleaned
pathname does not itself begin with a language prefix; in general a second
application may strip one more stacked locale prefix. -/
theorem claim_C5_idempotent_unless_stacked_locale (P : List (List Char))
    (u v : List Char) (h : cleanSingleUrl P u = some v)
    (hnp : ∀ pre ∈ P, pre.isPrefixOf (urlPathname v) = false) :
    cleanSingleUrl P v = some v :=
  cleanSingleUrl_idem P u v h hnp

/-- Witness for the amended C5 at a concrete URL. -/
theorem claim_C5_idempotent_witness :
    cleanSingleUrl languagePrefixesSimple (str "https://example.com/x") =
      some (str "https://example.com/x") :=
  claim_C5_idempotent_unless_stacked_locale languagePrefixesSimple
    (str "https://example.com/en/x") (str "https://example.com/x")
    (by decide) (by decide)

/-- C6 counterexample: an anchor whose resolved URL has scheme `httpfoo`
(neither http nor https) is extracted and passes the verification filter,
because the filter tests only the string prefix `http`; the claim says a link
without an http/https scheme is excluded. -/
theorem claim_C6_counterexample :
    extractLinks LinkExtractorState.make c6doc c6base c6html = [c6link] ∧
    linksToCheckFilter [c6link] = [c6link] ∧
    urlScheme c6link.url = some (str "httpfoo") ∧
    ¬str "httpfoo" = str "http" ∧ ¬str "httpfoo" = str "https" := by
  refine ⟨by decide, by decide, by decide, by decide, by decide⟩

/-- C6 amended: an extracted link is kept for verification iff its resolved
URL starts with the string `http` and contains no `#` anywhere; the
`mailto:`/`tel:` conditions of the filter are already guaranteed at
extraction, where such references resolve to null and are dropped. -/
theorem claim_C6_filter_iff (doc : List Element) (base html : List Char)
    (l : ExtractedLink)
    (h : l ∈ extractLinks LinkExtractorState.make doc base html) :
    l ∈ linksToCheckFilter (extractLinks LinkExtractorState.make doc base html) ↔
      ((str "http").isPrefixOf l.url = true ∧ l.url.contains '#' = false) := by
  have hmt : (str "mailto:").isPrefixOf l.originalHref = false ∧
      (str "tel:").isPrefixOf l.originalHref = false := by
    obtain ⟨e, _, _, l0, hl0, hfe⟩ := mem_extractLinks_make h
    obtain ⟨_, href, _, hhref, hres⟩ := extractSingleLink_fields hl0
    rw [hfe.2.2, hhref]
    exact resolveUrl_guards hres
  unfold linksToCheckFilter
  constructor
  · intro hin
    have hpred := (List.mem_filter.mp hin).2
    simp only [Bool.and_eq_true, Bool.not_eq_true'] at hpred
    exact ⟨hpred.1.1.1, hpred.1.1.2⟩
  · intro hcond
    refine List.mem_filter.mpr ⟨h, ?_⟩
    simp only [Bool.and_eq_true, Bool.not_eq_true']
    exact ⟨⟨⟨hcond.1, hcond.2⟩, hmt.1⟩, hmt.2⟩

/-- Witness for the amended C6: the `httpfoo` link of the counterexample
document satisfies the filter conditions, hence is verified. -/
theorem claim_C6_filter_iff_witness :
    c6link ∈ linksToCheckFilter (extractLinks LinkExtractorState.make c6doc c6base c6html) := by
  have hm : c6link ∈ extractLinks LinkExtractorState.make c6doc c6base c6html := by decide
  exact (claim_C6_filter_iff c6doc c6base c6html c6link hm).mpr ⟨by decide, by decide⟩

/-- C7 counterexample: a raw sitemap whose only URL is a .pdf cleans to the
empty list, yet the handler completes with success and zero scanned pages
instead of aborting. -/
theorem claim_C7_counterexample :
    (checkLinksHandler languagePrefixesRegional
        [str "https://example.com/doc.pdf"] none).success = true ∧
    (checkLinksHandler languagePrefixesRegional
        [str "https://example.com/doc.pdf"] none).scannedUrls = 0 ∧
    process languagePrefixesRegional [str "https://example.com/doc.pdf"] = [] := by
  refine ⟨by decide, by decide, by decide⟩

/-- C7 amended: the handler reports a fatal failure iff the raw sitemap URL
list is empty; an empty cleaned set completes successfully with zero scanned
pages. -/
theorem claim_C7_success_iff (P : List (List Char)) (rawUrls : List (List Char))
    (maxPages : Option Nat) :
    ((checkLinksHandler P rawUrls maxPages).success = false ↔ rawUrls = []) := by
  unfold checkLinksHandler
  split
  · next h =>
    constructor
    · intro _
      exact List.length_eq_zero.mp h
    · intro _
      rfl
  · next h =>
    constructor
    · intro hfalse
      simp at hfalse
    · intro hnil
      exact absurd (by rw [hnil]; rfl) h

/-- C8: the checked-link output list of `checkLinksInBatch` preserves input
order and length for every batch size at least 1 — the i-th output is the
post-processed outcome of the i-th input link, independent of batching. -/
theorem claim_C8_batch_order (check : ExtractedLink → Except RejectReason CheckedLink)
    (c : Nat) (hc : 1 ≤ c) (links : List ExtractedLink) :
    (checkLinksInBatch check c links).length = links.length ∧
    ∀ i : Nat, ∀ hi : i < links.length,
      (checkLinksInBatch check c links)[i]? =
        some (batchPost (settleOf check (links.get ⟨i, hi⟩))) := by
  rw [checkLinksInBatch_eq_map check c hc]
  refine ⟨by simp, ?_⟩
  intro i hi
  rw [List.getElem?_map]
  rw [List.getElem?_eq_getElem (by simpa using hi)]
  simp

/-- Witness for C8 at batch size 2 over three links with a mid-list
rejection. -/
theorem claim_C8_batch_order_witness :
    (checkLinksInBatch c8check 2 c8links).length = 3 ∧
    (checkLinksInBatch c8check 2 c8links)[1]? =
      some (batchPost (settleOf c8check (c8links.get ⟨1, by decide⟩))) := by
  have h := claim_C8_batch_order c8check 2 (by decide) c8links
  exact ⟨h.1, h.2 1 (by decide)⟩

/-- C9 counterexample: `process` passes a parseable ftp URL through
unchanged, so not every member of the normalized output has scheme http or
https. -/
theorem claim_C9_counterexample :
    process languagePrefixesRegional [str "ftp://example.com/a"] =
      [str "ftp://example.com/a"] ∧
    urlScheme (str "ftp://example.com/a") = some (str "ftp") ∧
    ¬str "ftp" = str "http" ∧ ¬str "ftp" = str "https" := by
  refine ⟨by decide, by decide, by decide, by decide⟩

/-- C9 amended: every member of the output of `process` is the cleaning of
some input URL and keeps that input's scheme; in particular, when every
(trimmed) input starts with the string `http` — what the sitemap fetcher's
filter guarantees — every output starts with `http`, but nothing restricts
the scheme to exactly http/https. -/
theorem claim_C9_scheme_provenance (P urls : List (List Char)) :
    (∀ u ∈ process P urls, ∃ r ∈ urls, cleanSingleUrl P r = some u ∧
        urlScheme u = urlScheme (trimChars r)) ∧
    ((∀ r ∈ urls, (str "http").isPrefixOf (trimChars r) = true) →
      ∀ u ∈ process P urls, (str "http").isPrefixOf u = true) := by
  constructor
  · intro u hu
    obtain ⟨r, hr, hcl⟩ := process_provenance hu
    exact ⟨r, hr, hcl, cleanSingleUrl_scheme hcl⟩
  · intro hall u hu
    obtain ⟨r, hr, hcl⟩ := process_provenance hu
    obtain ⟨w, hw, hueq⟩ := cleanSingleUrl_inv hcl
    obtain ⟨x, hx⟩ := parseUrl_shape hw
    have hpre := hall r hr
    rw [hx] at hpre
    rw [hueq]
    have hser : serializeUrl (cleanObj P w) = w.scheme ++ ':' :: ('/' :: '/' ::
        ((cleanObj P w).host ++ (cleanObj P w).path ++
          serializeQuery (cleanObj P w).query ++
          (if (cleanObj P w).frag = [] then [] else '#' :: (cleanObj P w).frag))) := rfl
    rw [hser]
    exact isPrefixOf_through_colon hpre (by decide)

/-- Witness for the amended C9 at a concrete input list. -/
theorem claim_C9_scheme_provenance_witness :
    (str "http").isPrefixOf (str "https://example.com/a") = true ∧
    str "https://example.com/a" ∈
      process languagePrefixesRegional [str "https://example.com/en-us/a"] :=
  ⟨(claim_C9_scheme_provenance languagePrefixesRegional
      [str "https://example.com/en-us/a"]).2 (by decide) _ (by decide),
   by decide⟩

/-- C10: the constructor hardcodes excludeImages, and every link returned by
`extractLinks` comes from an anchor element — stylesheet-link, script,
iframe, image and media elements are never extracted. -/
theorem claim_C10_only_anchors :
    LinkExtractorState.make.excludeImages = true ∧
    ∀ (doc : List Element) (base html : List Char) (l : ExtractedLink),
      l ∈ extractLinks LinkExtractorState.make doc base html → l.element = str "a" := by
  refine ⟨rfl, ?_⟩
  intro doc base html l h
  obtain ⟨e, hedoc, htag, l0, hl0, hfe⟩ := mem_extractLinks_make h
  rw [hfe.1, (extractSingleLink_fields hl0).1, htag]

/-- Witness for C10: the anchor of the sample document is extracted (the
image is not) and carries element a. -/
theorem claim_C10_only_anchors_witness :
    c10link ∈ extractLinks LinkExtractorState.make c10doc c10base c10html ∧
    c10link.element = str "a" := by
  have hm : c10link ∈ extractLinks LinkExtractorState.make c10doc c10base c10html := by
    decide
  exact ⟨hm, claim_C10_only_anchors.2 c10doc c10base c10html c10link hm⟩

end LinkCheck
